import Mathlib

/-!
A shallow embedding of `src/regex.py` (the `lab_3_regex` repository): a small
regex engine that compiles a pattern with literals, `.`, `*` and `+` into a
linked graph of state objects and matches candidate strings by a greedy,
single-path walk.

Modelling conventions:
* The Python object graph is an arena: `Graph := List Node`, nodes addressed by
  `Nat` indices.  A Python reference that may be `None` is an `Option Nat`.
* `StartState.next_states` and `RegexFSM.curr_state` are Python *class*
  attributes, so every compilation shares the single start node at index 0 of
  one arena; a fresh program run starts from `startGraph` and a second
  compilation continues on the arena returned by the first.
* Exceptions that propagate out of `check_string` (`AttributeError` from a
  `TerminationState` without `next_states` or from calling a method on `None`,
  `IndexError` from `string[0]` on an empty string) are modelled with
  `Except MErr`.  The internal `NotImplementedError` used as the
  "no transition" signal is modelled as the value `Except.ok none` of
  `check_next` and is converted to `false` by `check_string`.
* `check_self` recurses through the object graph (`StarState.check_self` calls
  `check_self` of its non-star successors, `PlusState.check_self` calls its
  wrapped state), so it takes a fuel argument; fuel exhaustion models a Python
  `RecursionError` and never occurs on compiled graphs at the fuel used here.
* `PlusState.check_next` first copies `next_states[1:]` into
  `next_states[0].next_states` (the lazy fold), a genuine mutation of the
  shared graph, so `check_next` and `check_string` return the updated arena
  next to their result.
* The matcher probes the end of input by calling `check_next("")`; the element
  type is therefore `Option Char`, with `none` standing for the empty string
  sentinel.
-/

/-- Node kinds, mirroring the `State` subclasses of `regex.py`.  `star` and
`plus` record the wrapped `self.state` reference (`Option` because Python can
pass `None` when a quantifier token is itself quantified). -/
inductive Kind where
  | start : Kind
  | termination : Kind
  | dot : Kind
  | ascii (sym : Char) : Kind
  | star (st : Option Nat) : Kind
  | plus (st : Option Nat) : Kind
deriving DecidableEq, Repr

/-- One state object: its kind and its `next_states` list (entries may be the
Python `None`).  `TerminationState` objects carry an empty list here, but every
access that Python would route through the missing `next_states` attribute is
modelled as an `AttributeError`. -/
structure Node where
  kind : Kind
  next : List (Option Nat)
deriving DecidableEq, Repr

abbrev Graph := List Node

/-- Errors that propagate out of the matcher: `attrError` models Python's
`AttributeError` (missing `next_states` on `TerminationState`, or a method
call on `None`), `indexError` models `string[0]` on an empty string, and
`fuelOut` models a `RecursionError` (unreachable on compiled graphs). -/
inductive MErr where
  | attrError : MErr
  | indexError : MErr
  | fuelOut : MErr
deriving DecidableEq, Repr

/-- Compile-time error: `AttributeError("Character is not supported")` raised
by `__init_next_state` for a non-ASCII token. -/
inductive CErr where
  | unsupported : CErr
deriving DecidableEq, Repr

/-- `isinstance(state, StarState)` for an arena index. -/
def isStarIdx (g : Graph) (j : Nat) : Bool :=
  match g[j]? with
  | some n =>
    match n.kind with
    | Kind.star _ => true
    | _ => false
  | none => false

/-- First-accepting scan used by `StarState.check_self`: walk `next_states`
in order, skip `StarState` instances, return `true` at the first member whose
`check_self` is true; an encountered `None` member raises `AttributeError`.
The member test is passed in as `f` (it is `check_self` at one fuel lower). -/
def starScanWith (g : Graph) (f : Nat → Except MErr Bool) :
    List (Option Nat) → Except MErr Bool
  | [] => Except.ok false
  | m :: rest =>
    match m with
    | none => Except.error MErr.attrError
    | some j =>
      if isStarIdx g j then starScanWith g f rest
      else
        match f j with
        | Except.error er => Except.error er
        | Except.ok true => Except.ok true
        | Except.ok false => starScanWith g f rest

/-- `check_self` of the node at index `i` (dispatching on its class):
`StartState` returns Python `None` (falsy, modelled `false`),
`TerminationState` and `DotState` return `True`, `AsciiState` compares its
symbol, `PlusState` delegates to its wrapped state, `StarState` scans its
`next_states` skipping star members. -/
def check_self : Nat → Graph → Nat → Option Char → Except MErr Bool
  | 0, _, _, _ => Except.error MErr.fuelOut
  | fuel + 1, g, i, e =>
    match g[i]? with
    | none => Except.error MErr.attrError
    | some n =>
      match n.kind with
      | Kind.start => Except.ok false
      | Kind.termination => Except.ok true
      | Kind.dot => Except.ok true
      | Kind.ascii sym =>
        Except.ok (match e with
          | some c => sym == c
          | none => false)
      | Kind.plus none => Except.error MErr.attrError
      | Kind.plus (some j) => check_self fuel g j e
      | Kind.star _ => starScanWith g (fun j => check_self fuel g j e) n.next

/-- `check_self` on a possibly-`None` reference: calling a method on `None`
raises `AttributeError`. -/
def check_self_opt (fuel : Nat) (g : Graph) : Option Nat → Option Char → Except MErr Bool
  | none, _ => Except.error MErr.attrError
  | some i, e => check_self fuel g i e

/-- The scan of `State.check_next`: walk the given (already reversed) list,
return the first member whose `check_self` is true.  Exhaustion is the
`NotImplementedError("rejected string")` signal, modelled `Except.ok none`. -/
def scanSel (fuel : Nat) (g : Graph) : List (Option Nat) → Option Char → Except MErr (Option Nat)
  | [], _ => Except.ok none
  | m :: rest, e =>
    match m with
    | none => Except.error MErr.attrError
    | some j =>
      match check_self fuel g j e with
      | Except.error er => Except.error er
      | Except.ok true => Except.ok (some j)
      | Except.ok false => scanSel fuel g rest e

/-- The lazy fold at the top of `PlusState.check_next`:
`for el in self.next_states[1:]: self.next_states[0].next_states.append(el)`.
With fewer than two entries the loop body never runs; otherwise appending to
`None`, to a dangling reference, or to a `TerminationState` (no `next_states`)
raises `AttributeError` before any append lands. -/
def plusFold (g : Graph) : List (Option Nat) → Except MErr Graph
  | [] => Except.ok g
  | [_] => Except.ok g
  | h :: t =>
    match h with
    | none => Except.error MErr.attrError
    | some hi =>
      match g[hi]? with
      | none => Except.error MErr.attrError
      | some hn =>
        match hn.kind with
        | Kind.termination => Except.error MErr.attrError
        | _ => Except.ok (g.set hi ⟨hn.kind, hn.next ++ t⟩)

/-- `check_next` of the node at index `i`.  `TerminationState` has no
`next_states` attribute, so the base-class scan raises `AttributeError`;
`PlusState` first performs the lazy fold (mutating the arena), then scans its
(updated) `next_states` in reverse; every other class scans its `next_states`
in reverse.  Returns the possibly-mutated arena alongside the result. -/
def check_next (fuel : Nat) (g : Graph) (i : Nat) (e : Option Char) :
    Graph × Except MErr (Option Nat) :=
  match g[i]? with
  | none => (g, Except.error MErr.attrError)
  | some n =>
    match n.kind with
    | Kind.termination => (g, Except.error MErr.attrError)
    | Kind.plus _ =>
      match plusFold g n.next with
      | Except.error er => (g, Except.error er)
      | Except.ok g' =>
        match g'[i]? with
        | none => (g', Except.error MErr.attrError)
        | some n' => (g', scanSel fuel g' n'.next.reverse e)
    | _ => (g, scanSel fuel g n.next.reverse e)

/-- `isinstance(curr_state, TerminationState)`. -/
def isTermIdx (g : Graph) (j : Nat) : Bool :=
  match g[j]? with
  | some n =>
    match n.kind with
    | Kind.termination => true
    | _ => false
  | none => false

/-- The `for char in string` loop of `check_string`, starting at state `cur`,
followed by the final `check_next("")` probe and the `TerminationState` test.
`Except.ok none` from `check_next` (the caught `NotImplementedError`) becomes
the verdict `false`; a failing re-check of `check_self` likewise. -/
def matchLoop (fuel : Nat) : Graph → Nat → List Char → Graph × Except MErr Bool
  | g, cur, [] =>
    match check_next fuel g cur none with
    | (g', Except.error er) => (g', Except.error er)
    | (g', Except.ok none) => (g', Except.ok false)
    | (g', Except.ok (some j)) => (g', Except.ok (isTermIdx g' j))
  | g, cur, c :: rest =>
    match check_next fuel g cur (some c) with
    | (g', Except.error er) => (g', Except.error er)
    | (g', Except.ok none) => (g', Except.ok false)
    | (g', Except.ok (some j)) =>
      match check_self fuel g' j (some c) with
      | Except.error er => (g', Except.error er)
      | Except.ok false => (g', Except.ok false)
      | Except.ok true => matchLoop fuel g' j rest

/-- `RegexFSM.check_string`: the initial `check_next(string[0])` (raising
`IndexError` on an empty candidate), then the loop over the whole string
(so the first character is consumed twice), then the end-of-input probe. -/
def check_string (fuel : Nat) (g : Graph) (s : List Char) : Graph × Except MErr Bool :=
  match s with
  | [] => (g, Except.error MErr.indexError)
  | c0 :: _ =>
    match check_next fuel g 0 (some c0) with
    | (g', Except.error er) => (g', Except.error er)
    | (g', Except.ok none) => (g', Except.ok false)
    | (g', Except.ok (some j)) => matchLoop fuel g' j s

/-- `__init_next_state`: allocate the state object(s) for one token.
`DotState` for `.`; `StarState` wraps the passed `tmp_next_state` reference
and seeds its `next_states` with the wrapped state and itself; `PlusState`
allocates an inner `StarState` and points at it; `AsciiState` for any other
ASCII character; anything else raises the unsupported-token error.  Returns
the extended arena and the new object's index. -/
def init_next_state (g : Graph) (tok : Char) (tmp : Option Nat) :
    Except CErr (Graph × Nat) :=
  if tok = '.' then
    Except.ok (g ++ [⟨Kind.dot, []⟩], g.length)
  else if tok = '*' then
    Except.ok (g ++ [⟨Kind.star tmp, [tmp, some g.length]⟩], g.length)
  else if tok = '+' then
    Except.ok
      (g ++ [⟨Kind.star tmp, [tmp, some g.length]⟩,
             ⟨Kind.plus tmp, [some g.length]⟩],
       g.length + 1)
  else if tok.toNat ≤ 127 then
    Except.ok (g ++ [⟨Kind.ascii tok, []⟩], g.length)
  else
    Except.error CErr.unsupported

/-- `prev_state.next_states.append(<node j>)`. -/
def appendNext (g : Graph) (i : Nat) (j : Nat) : Graph :=
  match g[i]? with
  | none => g
  | some n => g.set i ⟨n.kind, n.next ++ [some j]⟩

/-- The scanning loop of `RegexFSM.__init__`: one token of lookahead; a
quantifier in the lookahead builds the (unlinked) repeated state and wraps it;
otherwise the single token is built with the current `tmp_next_state`; after
the scan a fresh `TerminationState` is appended to the last built state. -/
def compileAux (g : Graph) (prev tmp : Nat) : List Char → Except CErr Graph
  | [] => Except.ok (appendNext (g ++ [⟨Kind.termination, []⟩]) prev g.length)
  | c :: rest =>
    match rest with
    | c2 :: rest2 =>
      if c2 = '*' ∨ c2 = '+' then
        match init_next_state g c none with
        | Except.error er => Except.error er
        | Except.ok (g1, rep) =>
          match init_next_state g1 c2 (some rep) with
          | Except.error er => Except.error er
          | Except.ok (g2, q) => compileAux (appendNext g2 prev q) q q rest2
      else
        match init_next_state g c (some tmp) with
        | Except.error er => Except.error er
        | Except.ok (g1, nn) => compileAux (appendNext g1 prev nn) nn nn (c2 :: rest2)
    | [] =>
      match init_next_state g c (some tmp) with
      | Except.error er => Except.error er
      | Except.ok (g1, nn) => compileAux (appendNext g1 prev nn) nn nn []

/-- The arena of a fresh Python process: only the class-level `StartState`
(shared by every `RegexFSM` instance) at index 0, with an empty class-level
`next_states` list. -/
def startGraph : Graph := [⟨Kind.start, []⟩]

/-- `RegexFSM(regex_expr)` run against an existing arena: because
`RegexFSM.curr_state` and `StartState.next_states` are class attributes, a
second construction keeps appending to the same start node. -/
def compileInto (g : Graph) (p : String) : Except CErr Graph :=
  compileAux g 0 0 p.toList

/-- Compilation in a fresh process. -/
def compileFresh (p : String) : Except CErr Graph :=
  compileInto startGraph p

/-- Run `check_string` for each candidate in turn against the same (mutating)
compiled graph, exactly as the demonstration at the bottom of `regex.py`
does, collecting each call's outcome. -/
def runSeq (fuel : Nat) (g : Graph) : List (List Char) → List (Except MErr Bool)
  | [] => []
  | s :: rest =>
    match check_string fuel g s with
    | (g', r) => r :: runSeq fuel g' rest

/-- Compile `p` freshly, then match the candidates in order on the shared
graph (the public `compile`-then-`matches` workflow). -/
def runAll (fuel : Nat) (p : String) (cands : List String) :
    Except CErr (List (Except MErr Bool)) :=
  match compileFresh p with
  | Except.error er => Except.error er
  | Except.ok g => Except.ok (runSeq fuel g (cands.map String.toList))

/-- `n` repeated `check_string` calls with the same candidate on the same
(mutating) compiled graph, returning the graph left behind. -/
def iterMatch (fuel : Nat) (s : List Char) : Nat → Graph → Graph
  | 0, g => g
  | n + 1, g => iterMatch fuel s n (check_string fuel g s).1

/-! ## Concrete end-to-end facts -/

/-- C1: for a fresh compilation of the reference pattern `"a*4.+hi"`, the
matcher returns true for `"aaaaaa4uhi"`, true for `"4uhi"`, false for
`"meow"`, false for `"a4.h"` and false for `"aaa4hi"` (the greedy single-path
verdict on `"aaa4hi"` is preserved exactly, whether the candidates are run in
sequence on the shared graph or against a fresh compilation). -/
theorem c1_reference_pattern_verdicts :
    runAll 50 "a*4.+hi" ["aaaaaa4uhi", "4uhi", "meow", "a4.h", "aaa4hi"] =
      Except.ok [Except.ok true, Except.ok true, Except.ok false,
        Except.ok false, Except.ok false] ∧
    runAll 50 "a*4.+hi" ["aaa4hi"] = Except.ok [Except.ok false] :=
  ⟨rfl, rfl⟩

/-- C2 is violated by the code: for the compiled pattern `"a"`, the candidate
`""` makes `check_string` evaluate `string[0]` and the `IndexError` escapes,
and the candidate `"a"` walks onto the `TerminationState` early and the final
`check_next("")` raises `AttributeError` through the matcher boundary; neither
call returns a boolean. -/
theorem c2_matcher_error_escapes :
    runAll 50 "a" ["", "a"] =
      Except.ok [Except.error MErr.indexError, Except.error MErr.attrError] :=
  rfl

/-- C3 is violated by the code: `RegexFSM.curr_state` and
`StartState.next_states` are class attributes, so a second compilation appends
its first state into the very start node owned by the first compiled pattern.
After compiling `"a*b"` the candidate `"d"` is rejected; compiling `"c*d"`
afterwards flips the first automaton's verdict on `"d"` to true. -/
theorem c3_second_compile_mutates_first_graph :
    (compileFresh "a*b").map (fun g1 => (check_string 50 g1 "d".toList).2) =
      Except.ok (Except.ok false) ∧
    (compileFresh "a*b").map (fun g1 =>
        (compileInto g1 "c*d").map (fun g2 => (check_string 50 g2 "d".toList).2)) =
      Except.ok (Except.ok (Except.ok true)) :=
  ⟨rfl, rfl⟩

/-- C4 is violated by the code: the empty pattern compiles to
`Start -> Termination`, but matching `""` hits `string[0]` and raises
`IndexError`, and matching `"x"` selects the `TerminationState` (whose
`check_self` is unconditionally true) and then crashes with `AttributeError`
on its missing `next_states`; neither call returns the boolean the claim
demands. -/
theorem c4_empty_pattern_crashes :
    runAll 50 "" ["", "x"] =
      Except.ok [Except.error MErr.indexError, Except.error MErr.attrError] :=
  rfl

/-- C5 is violated by the code: for the compiled pattern `"a+"`, the
`TerminationState` appended directly to the `PlusState` is selected as soon as
one `a` is consumed (its `check_self` is unconditionally true), so the
candidates `"a"` and `"aaa"` crash with `AttributeError` instead of matching;
`""` raises `IndexError`; only `"b"` produces the claimed false. -/
theorem c5_wildcard_plus_crashes :
    runAll 50 "a+" ["a", "aaa", "", "b"] =
      Except.ok [Except.error MErr.attrError, Except.error MErr.attrError,
        Except.error MErr.indexError, Except.ok false] :=
  rfl

/-- C6 is violated by the code: for the compiled pattern `"a+b"` the inner
`StarState` (index 2) of the `OneOrMore` node holds `[a, itself, b]` after one
match of `"ab"`, and `PlusState.check_next` re-appends the successor on the
second match, leaving `[a, itself, b, b]` — the continuation's outgoing list
is not the same after the second invocation as after the first. -/
theorem c6_fold_duplicates_entries :
    (compileFresh "a+b").map (fun g =>
        let g1 := (check_string 50 g "ab".toList).1
        let g2 := (check_string 50 g1 "ab".toList).1
        ((g1[2]?).map Node.next, (g2[2]?).map Node.next)) =
      Except.ok (some [some 1, some 2, some 4],
        some [some 1, some 2, some 4, some 4]) ∧
    ([some 1, some 2, some 4] : List (Option Nat)) ≠
      [some 1, some 2, some 4, some 4] :=
  ⟨rfl, by decide⟩

/-- C7 is violated by the code: a bare quantifier is compiled without any
error — `"*"` silently yields a usable graph whose `StarState` wraps the
shared start node, and `"a**"` also compiles. -/
theorem c7_bare_quantifier_compiles_silently :
    compileFresh "*" =
      Except.ok [⟨Kind.start, [some 1]⟩,
        ⟨Kind.star (some 0), [some 0, some 1, some 2]⟩,
        ⟨Kind.termination, []⟩] ∧
    (compileFresh "a**").isOk = true :=
  ⟨rfl, rfl⟩

/-- C8 fails for `ZeroOrMore` nodes: in the compiled graph of `"a*b"` the
`StarState` at index 2 wraps the `AsciiState` `'a'` at index 1, yet its
`check_self` accepts `'b'` (via the appended exit edge) while the wrapped
inner state rejects `'b'` — `accepts_self` of a quantifier node is not
equivalent to its inner node's `accepts_self`. -/
theorem c8_counterexample_star_accepts_beyond_inner :
    compileFresh "a*b" =
      Except.ok [⟨Kind.start, [some 2]⟩, ⟨Kind.ascii 'a', []⟩,
        ⟨Kind.star (some 1), [some 1, some 2, some 3]⟩,
        ⟨Kind.ascii 'b', [some 4]⟩, ⟨Kind.termination, []⟩] ∧
    check_self 50
      [⟨Kind.start, [some 2]⟩, ⟨Kind.ascii 'a', []⟩,
        ⟨Kind.star (some 1), [some 1, some 2, some 3]⟩,
        ⟨Kind.ascii 'b', [some 4]⟩, ⟨Kind.termination, []⟩] 2 (some 'b') =
      Except.ok true ∧
    check_self 50
      [⟨Kind.start, [some 2]⟩, ⟨Kind.ascii 'a', []⟩,
        ⟨Kind.star (some 1), [some 1, some 2, some 3]⟩,
        ⟨Kind.ascii 'b', [some 4]⟩, ⟨Kind.termination, []⟩] 1 (some 'b') =
      Except.ok false :=
  ⟨rfl, rfl, rfl⟩

/-! ## The acceptance rule of quantifier nodes -/

/-- The scan of `StarState.check_self` succeeds exactly when some non-star
member of the scanned list is accepted, provided no member is `None` and every
evaluated member test returns (rather than raises). -/
theorem starScanWith_ok_true_iff (g : Graph) (f : Nat → Except MErr Bool)
    (l : List (Option Nat)) (hnn : none ∉ l)
    (hok : ∀ k, some k ∈ l → isStarIdx g k = false → ∃ b, f k = Except.ok b) :
    starScanWith g f l = Except.ok true ↔
      ∃ k, some k ∈ l ∧ isStarIdx g k = false ∧ f k = Except.ok true := by
  induction l with
  | nil => simp [starScanWith]
  | cons m rest ih =>
    have hm : m ≠ none := fun h => hnn (h ▸ List.mem_cons_self m rest)
    obtain ⟨k, rfl⟩ : ∃ k, m = some k := by
      cases m with
      | none => exact absurd rfl hm
      | some k => exact ⟨k, rfl⟩
    have hnn' : none ∉ rest := fun h => hnn (List.mem_cons_of_mem _ h)
    have hok' : ∀ k', some k' ∈ rest → isStarIdx g k' = false →
        ∃ b, f k' = Except.ok b :=
      fun k' hk' => hok k' (List.mem_cons_of_mem _ hk')
    by_cases hs : isStarIdx g k
    · rw [show starScanWith g f (some k :: rest) = starScanWith g f rest by
        simp [starScanWith, hs]]
      rw [ih hnn' hok']
      constructor
      · rintro ⟨k', h1, h2, h3⟩
        exact ⟨k', List.mem_cons_of_mem _ h1, h2, h3⟩
      · rintro ⟨k', h1, h2, h3⟩
        rcases List.mem_cons.mp h1 with h1 | h1
        · cases Option.some.inj h1
          exact absurd hs (by simp [h2])
        · exact ⟨k', h1, h2, h3⟩
    · obtain ⟨b, hb⟩ := hok k (List.mem_cons_self _ _) (by simpa using hs)
      cases b with
      | true =>
        rw [show starScanWith g f (some k :: rest) = Except.ok true by
          simp [starScanWith, hs, hb]]
        constructor
        · intro _
          exact ⟨k, List.mem_cons_self _ _, by simpa using hs, hb⟩
        · intro _
          rfl
      | false =>
        rw [show starScanWith g f (some k :: rest) = starScanWith g f rest by
          simp [starScanWith, hs, hb]]
        rw [ih hnn' hok']
        constructor
        · rintro ⟨k', h1, h2, h3⟩
          exact ⟨k', List.mem_cons_of_mem _ h1, h2, h3⟩
        · rintro ⟨k', h1, h2, h3⟩
          rcases List.mem_cons.mp h1 with h1 | h1
          · cases Option.some.inj h1
            rw [hb] at h3
            exact absurd (Except.ok.inj h3) Bool.false_ne_true
          · exact ⟨k', h1, h2, h3⟩

/-- C8 amended: a `OneOrMore` node's `accepts_self` delegates exactly to the
inner node it wraps; a `ZeroOrMore` node's `accepts_self` is true iff some
non-star member of its own outgoing list (the wrapped inner node or any
successor appended later by the compiler) accepts the element — which
coincides with the inner node only while no successor has been appended. -/
theorem c8_quantifier_accepts_self (fuel : Nat) (g : Graph) (e : Option Char)
    (i₁ i₂ j : Nat) (st : Option Nat) (l l₂ : List (Option Nat))
    (h₁ : g[i₁]? = some ⟨Kind.star st, l⟩)
    (hnn : none ∉ l)
    (hok : ∀ k, some k ∈ l → isStarIdx g k = false →
      ∃ b, check_self fuel g k e = Except.ok b)
    (h₂ : g[i₂]? = some ⟨Kind.plus (some j), l₂⟩) :
    (check_self (fuel + 1) g i₁ e = Except.ok true ↔
      ∃ k, some k ∈ l ∧ isStarIdx g k = false ∧
        check_self fuel g k e = Except.ok true) ∧
    check_self (fuel + 1) g i₂ e = check_self fuel g j e := by
  constructor
  · rw [show check_self (fuel + 1) g i₁ e =
      starScanWith g (fun k => check_self fuel g k e) l by simp [check_self, h₁]]
    exact starScanWith_ok_true_iff g _ l hnn hok
  · simp [check_self, h₂]

/-- Witness for the amended C8, on the compiled graph of `"a*b+"`: the
`ZeroOrMore` node at index 2 and the `OneOrMore` node at index 5. -/
theorem c8_quantifier_accepts_self_witness :
    (check_self 11
        [⟨Kind.start, [some 2]⟩, ⟨Kind.ascii 'a', []⟩,
          ⟨Kind.star (some 1), [some 1, some 2, some 5]⟩, ⟨Kind.ascii 'b', []⟩,
          ⟨Kind.star (some 3), [some 3, some 4]⟩,
          ⟨Kind.plus (some 3), [some 4, some 6]⟩, ⟨Kind.termination, []⟩]
        2 (some 'b') = Except.ok true ↔
      ∃ k, some k ∈ ([some 1, some 2, some 5] : List (Option Nat)) ∧
        isStarIdx
          [⟨Kind.start, [some 2]⟩, ⟨Kind.ascii 'a', []⟩,
            ⟨Kind.star (some 1), [some 1, some 2, some 5]⟩, ⟨Kind.ascii 'b', []⟩,
            ⟨Kind.star (some 3), [some 3, some 4]⟩,
            ⟨Kind.plus (some 3), [some 4, some 6]⟩, ⟨Kind.termination, []⟩]
          k = false ∧
        check_self 10
          [⟨Kind.start, [some 2]⟩, ⟨Kind.ascii 'a', []⟩,
            ⟨Kind.star (some 1), [some 1, some 2, some 5]⟩, ⟨Kind.ascii 'b', []⟩,
            ⟨Kind.star (some 3), [some 3, some 4]⟩,
            ⟨Kind.plus (some 3), [some 4, some 6]⟩, ⟨Kind.termination, []⟩]
          k (some 'b') = Except.ok true) ∧
    check_self 11
      [⟨Kind.start, [some 2]⟩, ⟨Kind.ascii 'a', []⟩,
        ⟨Kind.star (some 1), [some 1, some 2, some 5]⟩, ⟨Kind.ascii 'b', []⟩,
        ⟨Kind.star (some 3), [some 3, some 4]⟩,
        ⟨Kind.plus (some 3), [some 4, some 6]⟩, ⟨Kind.termination, []⟩]
      5 (some 'b') =
    check_self 10
      [⟨Kind.start, [some 2]⟩, ⟨Kind.ascii 'a', []⟩,
        ⟨Kind.star (some 1), [some 1, some 2, some 5]⟩, ⟨Kind.ascii 'b', []⟩,
        ⟨Kind.star (some 3), [some 3, some 4]⟩,
        ⟨Kind.plus (some 3), [some 4, some 6]⟩, ⟨Kind.termination, []⟩]
      3 (some 'b') := by
  refine c8_quantifier_accepts_self 10 _ (some 'b') 2 5 3 (some 1)
    [some 1, some 2, some 5] [some 4, some 6] rfl (by decide) ?_ rfl
  intro k hk hst
  rcases List.mem_cons.mp hk with h | h
  · cases Option.some.inj h
    exact ⟨false, rfl⟩
  rcases List.mem_cons.mp h with h | h
  · cases Option.some.inj h
    exact absurd hst (by decide)
  rcases List.mem_cons.mp h with h | h
  · cases Option.some.inj h
    exact ⟨true, rfl⟩
  · exact absurd h (List.not_mem_nil _)

/-! ## Advancing from a `TerminationState` -/

/-- C10: `check_next` on a `TerminationState` does not produce the internal
rejection signal but raises `AttributeError` (the class defines no
`next_states` list), while its `check_self` is unconditionally true, so the
walk can select it before the end of input; through the public interface,
pattern `"a"` with candidate `"a"` reaches exactly this failure. -/
theorem c10_termination_advance_attribute_error (fuel : Nat) (g : Graph)
    (i : Nat) (e : Option Char) (l : List (Option Nat))
    (h : g[i]? = some ⟨Kind.termination, l⟩) :
    check_next fuel g i e = (g, Except.error MErr.attrError) ∧
    check_self (fuel + 1) g i e = Except.ok true ∧
    runAll 50 "a" ["a"] = Except.ok [Except.error MErr.attrError] := by
  refine ⟨?_, ?_, rfl⟩
  · simp [check_next, h]
  · simp [check_self, h]

/-- Witness for C10 at a concrete one-node arena. -/
theorem c10_termination_advance_attribute_error_witness :
    check_next 5 [⟨Kind.termination, []⟩] 0 (some 'a') =
      ([⟨Kind.termination, []⟩], Except.error MErr.attrError) ∧
    check_self 6 [⟨Kind.termination, []⟩] 0 (some 'a') = Except.ok true ∧
    runAll 50 "a" ["a"] = Except.ok [Except.error MErr.attrError] :=
  c10_termination_advance_attribute_error 5 [⟨Kind.termination, []⟩] 0 (some 'a') [] rfl

/-! ## Determinism of repeated matching

`check_string` mutates the compiled graph (the lazy fold of
`PlusState.check_next` appends the plus node's successors to its inner star's
`next_states` on every traversal), so determinism of repeated matching is not
syntactic.  The development below shows that every graph reachable from a
compiled graph differs from it only by whole repeated copies of each plus
node's successor block at the end of its inner star's list, and that the
matcher's behaviour is invariant under the number of such copies. -/

/-- The class of the object at index `i`, if any. -/
def kindOf (g : Graph) (i : Nat) : Option Kind :=
  (g[i]?).map Node.kind

/-- The `next_states` list of the object at index `i` (empty for a dangling
index; used only in specifications). -/
def nextOf (g : Graph) (i : Nat) : List (Option Nat) :=
  match g[i]? with
  | some n => n.next
  | none => []

/-- Index `j` is the inner star of some plus node: the head of a
`PlusState`'s `next_states`.  Only such nodes are ever mutated by the lazy
fold. -/
def IsPlusHead (g : Graph) (j : Nat) : Prop :=
  ∃ (p : Nat) (st : Option Nat) (t : List (Option Nat)), g[p]? = some (Node.mk (Kind.plus st) (some j :: t))

/-- If the plus node at index `p` has head `j`, the tail of its
`next_states`; `none` otherwise. -/
def ownerTail (g : Graph) (j : Nat) (p : Nat) : Option (List (Option Nat)) :=
  match g[p]? with
  | some (Node.mk (Kind.plus _) (some h :: t)) => if h = j then some t else none
  | _ => none

/-- The successor block a fold appends to the star at index `j`: the tail of
its owning plus node's `next_states` (`[]` if no plus owns `j`). -/
def blockOf (g : Graph) (j : Nat) : List (Option Nat) :=
  match (List.range g.length).findSome? (ownerTail g j) with
  | some t => t
  | none => []

/-- `n` concatenated copies of `B`, appended in fold order. -/
def repBlk (B : List (Option Nat)) : Nat → List (Option Nat)
  | 0 => []
  | n + 1 => repBlk B n ++ B

/-- `g` is `g₀` after some folds: same length and classes everywhere, and each
node's `next_states` is its original list followed by `k i` copies of its
successor block (`k` vanishes off the plus-head stars). -/
structure FoldSt (g₀ g : Graph) (k : Nat → Nat) : Prop where
  len : g.length = g₀.length
  kindEq : ∀ i, kindOf g i = kindOf g₀ i
  nexts : ∀ i, nextOf g i = nextOf g₀ i ++ repBlk (blockOf g₀ i) (k i)
  phz : ∀ i, ¬ IsPlusHead g₀ i → k i = 0

/-- Fold counters are only ever positive for stars whose owning plus has a
nonempty successor block (a fold with an empty block appends nothing). -/
def TailCompat (g₀ : Graph) (k : Nat → Nat) : Prop :=
  ∀ (p : Nat) (st : Option Nat) (j : Nat) (t : List (Option Nat)), g₀[p]? = some (Node.mk (Kind.plus st) (some j :: t)) → t = [] → k j = 0

/-- Static shape facts about a compiled graph, preserved by folds.  They say
where plus-head stars can occur: node 0 is the start node; every plus head is
a star; two pluses sharing a head have the same successor block; successor
blocks and wrapped plus states contain no plus head; and a plus-head star
occurs in a `next_states` list only at its owner's head or as its own
self-loop. -/
structure WF (g : Graph) : Prop where
  start0 : kindOf g 0 = some Kind.start
  plusHead : ∀ (p : Nat) (st : Option Nat) (j : Nat) (t : List (Option Nat)), g[p]? = some (Node.mk (Kind.plus st) (some j :: t)) →
    ∃ st2, kindOf g j = some (Kind.star st2)
  headTails : ∀ (p q : Nat) (stp stq : Option Nat) (j : Nat) (tp tq : List (Option Nat)), g[p]? = some (Node.mk (Kind.plus stp) (some j :: tp)) →
    g[q]? = some (Node.mk (Kind.plus stq) (some j :: tq)) → tp = tq
  tailSafe : ∀ (p : Nat) (st : Option Nat) (h : Option Nat) (t : List (Option Nat)) (j : Nat), g[p]? = some (Node.mk (Kind.plus st) (h :: t)) → some j ∈ t →
    ¬ IsPlusHead g j
  stateSafe : ∀ (p j : Nat) (l : List (Option Nat)), g[p]? = some (Node.mk (Kind.plus (some j)) l) → ¬ IsPlusHead g j
  occSafe : ∀ i j, some j ∈ nextOf g i → IsPlusHead g j →
    (∃ (st : Option Nat) (t : List (Option Nat)), g[i]? = some (Node.mk (Kind.plus st) (some j :: t))) ∨ i = j

/-- Two fold counters describe behaviourally equal star lists when both are
zero or both positive. -/
def CntOk (kA kB : Nat → Nat) (j : Nat) : Prop :=
  (kA j = 0 ∧ kB j = 0) ∨ (1 ≤ kA j ∧ 1 ≤ kB j)

theorem repBlk_zero (B : List (Option Nat)) : repBlk B 0 = [] := rfl

theorem repBlk_succ (B : List (Option Nat)) (n : Nat) :
    repBlk B (n + 1) = repBlk B n ++ B := rfl

theorem repBlk_succ_head (B : List (Option Nat)) (n : Nat) :
    repBlk B (n + 1) = B ++ repBlk B n := by
  induction n with
  | zero => simp [repBlk]
  | succ m ih =>
    calc repBlk B (m + 2) = repBlk B (m + 1) ++ B := rfl
    _ = (B ++ repBlk B m) ++ B := by rw [ih]
    _ = B ++ (repBlk B m ++ B) := by rw [List.append_assoc]
    _ = B ++ repBlk B (m + 1) := rfl

theorem ownerTail_eq_some {g : Graph} {j p : Nat} {t : List (Option Nat)} :
    ownerTail g j p = some t ↔
      ∃ st : Option Nat, g[p]? = some (Node.mk (Kind.plus st) (some j :: t)) := by
  unfold ownerTail
  cases hg : g[p]? with
  | none => simp
  | some n =>
    obtain ⟨kd, nx⟩ := n
    cases kd with
    | start => simp
    | termination => simp
    | dot => simp
    | ascii sym => simp
    | star st => simp
    | plus st =>
      cases nx with
      | nil => simp
      | cons hd tl =>
        cases hd with
        | none => simp
        | some hh =>
          by_cases hj : hh = j
          · subst hj
            simp
          · simp [hj]

/-- Every plus node with head `j` determines the block of `j` (well-defined
because `WF.headTails` makes all owners agree). -/
theorem blockOf_owner {g : Graph} (W : WF g) {p j : Nat} {st : Option Nat}
    {t : List (Option Nat)}
    (hp : g[p]? = some (Node.mk (Kind.plus st) (some j :: t))) :
    blockOf g j = t := by
  have hplt : p < g.length := by
    by_contra hge
    rw [List.getElem?_eq_none (Nat.le_of_not_lt hge)] at hp
    cases hp
  have hfp : ownerTail g j p = some t := ownerTail_eq_some.mpr ⟨st, hp⟩
  unfold blockOf
  cases hfind : (List.range g.length).findSome? (ownerTail g j) with
  | none =>
    rw [List.findSome?_eq_none_iff] at hfind
    have := hfind p (List.mem_range.mpr hplt)
    rw [hfp] at this
    cases this
  | some t' =>
    obtain ⟨q, _, hq⟩ := List.exists_of_findSome?_eq_some hfind
    obtain ⟨stq, hq'⟩ := ownerTail_eq_some.mp hq
    show t' = t
    exact W.headTails q p stq st j t' t hq' hp

/-- A plus-head star has an owner whose tail is exactly its block. -/
theorem blockOf_spec {g : Graph} (W : WF g) {j : Nat} (h : IsPlusHead g j) :
    ∃ (p : Nat) (st : Option Nat),
      g[p]? = some (Node.mk (Kind.plus st) (some j :: blockOf g j)) := by
  obtain ⟨p, st, t, hp⟩ := h
  exact ⟨p, st, by rw [blockOf_owner W hp]; exact hp⟩

theorem FoldSt.get_none {g₀ g : Graph} {k : Nat → Nat} (F : FoldSt g₀ g k)
    {i : Nat} (h : g₀[i]? = none) : g[i]? = none := by
  rw [List.getElem?_eq_none]
  rw [List.getElem?_eq_none_iff] at h
  exact F.len ▸ h

theorem FoldSt.get_eq {g₀ g : Graph} {k : Nat → Nat} (F : FoldSt g₀ g k)
    {i : Nat} {n₀ : Node} (h : g₀[i]? = some n₀) :
    g[i]? = some (Node.mk n₀.kind (n₀.next ++ repBlk (blockOf g₀ i) (k i))) := by
  have hil : i < g₀.length := by
    by_contra hge
    rw [List.getElem?_eq_none (Nat.le_of_not_lt hge)] at h
    cases h
  have hil' : i < g.length := F.len ▸ hil
  obtain ⟨m, hm⟩ : ∃ m, g[i]? = some m := ⟨g[i], List.getElem?_eq_getElem hil'⟩
  have hk := F.kindEq i
  unfold kindOf at hk
  rw [hm, h] at hk
  simp only [Option.map_some'] at hk
  have hn := F.nexts i
  rw [show nextOf g i = m.next by unfold nextOf; rw [hm]] at hn
  rw [show nextOf g₀ i = n₀.next by unfold nextOf; rw [h]] at hn
  rw [hm]
  cases m with
  | mk mk mn =>
    injection hk with hk
    simp only at hk hn
    rw [hk, hn]

/-- A plus-head star is star class, and hence a star instance in every fold
state of the graph. -/
theorem isStarIdx_of_head {g₀ g : Graph} {k : Nat → Nat} (W : WF g₀)
    (F : FoldSt g₀ g k) {j : Nat} (h : IsPlusHead g₀ j) :
    isStarIdx g j = true := by
  obtain ⟨p, st, t, hp⟩ := h
  obtain ⟨st2, hk⟩ := W.plusHead p st j t hp
  unfold kindOf at hk
  cases h₀ : g₀[j]? with
  | none => rw [h₀] at hk; cases hk
  | some n₀ =>
    rw [h₀] at hk
    simp only [Option.map_some'] at hk
    injection hk with hk
    unfold isStarIdx
    rw [F.get_eq h₀]
    simp [hk]

/-- A node that is not a plus-head star has identical contents in every fold
state. -/
theorem FoldSt.get_eq_of_not_head {g₀ g : Graph} {k : Nat → Nat}
    (F : FoldSt g₀ g k) {i : Nat} (h : ¬ IsPlusHead g₀ i) : g[i]? = g₀[i]? := by
  cases h₀ : g₀[i]? with
  | none => exact F.get_none h₀
  | some n₀ =>
    rw [F.get_eq h₀, F.phz i h, repBlk_zero, List.append_nil]

/-- A plus-class node is never a plus head (heads are stars). -/
theorem not_head_of_plus {g : Graph} (W : WF g) {p : Nat} {st : Option Nat}
    (h : kindOf g p = some (Kind.plus st)) : ¬ IsPlusHead g p := by
  intro hh
  obtain ⟨q, stq, t, hq⟩ := hh
  obtain ⟨st2, hk⟩ := W.plusHead q stq p t hq
  rw [h] at hk
  cases hk

/-- Sequencing of two `check_self` scans: the second is consulted only when
the first falls through with `false`. -/
def seqB (x y : Except MErr Bool) : Except MErr Bool :=
  match x with
  | Except.ok false => y
  | _ => x

/-- Sequencing of two `check_next` scans: the second is consulted only when
the first exhausts without a match. -/
def seqO (x y : Except MErr (Option Nat)) : Except MErr (Option Nat) :=
  match x with
  | Except.ok none => y
  | _ => x

theorem starScanWith_append (g : Graph) (f : Nat → Except MErr Bool)
    (l₁ l₂ : List (Option Nat)) :
    starScanWith g f (l₁ ++ l₂) =
      seqB (starScanWith g f l₁) (starScanWith g f l₂) := by
  induction l₁ with
  | nil => rfl
  | cons m rest ih =>
    cases m with
    | none => rfl
    | some j =>
      by_cases hs : isStarIdx g j
      · simpa [starScanWith, hs] using ih
      · cases hx : f j with
        | error er => simp [starScanWith, hs, hx, seqB]
        | ok b =>
          cases b with
          | true => simp [starScanWith, hs, hx, seqB]
          | false => simpa [starScanWith, hs, hx] using ih

theorem seqB_self (x : Except MErr Bool) : seqB x x = x := by
  cases x with
  | error er => rfl
  | ok b => cases b <;> rfl

theorem starScanWith_repBlk (g : Graph) (f : Nat → Except MErr Bool)
    (B : List (Option Nat)) (n : Nat) :
    starScanWith g f (repBlk B (n + 1)) = starScanWith g f B := by
  induction n with
  | zero =>
    show starScanWith g f ([] ++ B) = starScanWith g f B
    rw [List.nil_append]
  | succ m ih =>
    rw [repBlk_succ_head, starScanWith_append, ih, seqB_self]

theorem scanSel_append (fuel : Nat) (g : Graph) (e : Option Char)
    (l₁ l₂ : List (Option Nat)) :
    scanSel fuel g (l₁ ++ l₂) e =
      seqO (scanSel fuel g l₁ e) (scanSel fuel g l₂ e) := by
  induction l₁ with
  | nil => rfl
  | cons m rest ih =>
    cases m with
    | none => rfl
    | some j =>
      cases hx : check_self fuel g j e with
      | error er => simp [scanSel, hx, seqO]
      | ok b =>
        cases b with
        | true => simp [scanSel, hx, seqO]
        | false => simpa [scanSel, hx] using ih

theorem seqO_self (x : Except MErr (Option Nat)) : seqO x x = x := by
  cases x with
  | error er => rfl
  | ok b => cases b <;> rfl

theorem scanSel_repBlk (fuel : Nat) (g : Graph) (e : Option Char)
    (B : List (Option Nat)) (n : Nat) :
    scanSel fuel g (repBlk B (n + 1)) e = scanSel fuel g B e := by
  induction n with
  | zero =>
    show scanSel fuel g ([] ++ B) e = scanSel fuel g B e
    rw [List.nil_append]
  | succ m ih =>
    rw [repBlk_succ_head, scanSel_append, ih, seqO_self]

theorem reverse_repBlk (B : List (Option Nat)) (n : Nat) :
    (repBlk B n).reverse = repBlk B.reverse n := by
  induction n with
  | zero => rfl
  | succ m ih =>
    rw [repBlk_succ, List.reverse_append, ih, ← repBlk_succ_head]

theorem starScanWith_congr (gA gB : Graph) (fA fB : Nat → Except MErr Bool)
    (hstar : ∀ j, isStarIdx gA j = isStarIdx gB j) :
    ∀ l : List (Option Nat),
      (∀ j, some j ∈ l → isStarIdx gA j = false → fA j = fB j) →
      starScanWith gA fA l = starScanWith gB fB l := by
  intro l
  induction l with
  | nil => intro _; rfl
  | cons m rest ih =>
    intro hmem
    have ih' := ih (fun j hj => hmem j (List.mem_cons_of_mem _ hj))
    cases m with
    | none => rfl
    | some j =>
      by_cases hs : isStarIdx gA j
      · have hsB : isStarIdx gB j = true := (hstar j).symm.trans hs
        simp [starScanWith, hs, hsB, ih']
      · have hsA : isStarIdx gA j = false := by simpa using hs
        have hsB : isStarIdx gB j = false := (hstar j).symm.trans hsA
        have hf := hmem j (List.mem_cons_self _ _) hsA
        cases hx : fA j with
        | error er => simp [starScanWith, hsA, hsB, hx, ← hf]
        | ok b =>
          cases b with
          | true => simp [starScanWith, hsA, hsB, hx, ← hf]
          | false => simp [starScanWith, hsA, hsB, hx, ← hf, ih']

theorem scanSel_congr (fuel : Nat) (gA gB : Graph) (e : Option Char) :
    ∀ l : List (Option Nat),
      (∀ j, some j ∈ l → check_self fuel gA j e = check_self fuel gB j e) →
      scanSel fuel gA l e = scanSel fuel gB l e := by
  intro l
  induction l with
  | nil => intro _; rfl
  | cons m rest ih =>
    intro hself
    have ih' := ih (fun j hj => hself j (List.mem_cons_of_mem _ hj))
    cases m with
    | none => rfl
    | some j =>
      have hf := hself j (List.mem_cons_self _ _)
      cases hx : check_self fuel gA j e with
      | error er => simp [scanSel, hx, ← hf]
      | ok b =>
        cases b with
        | true => simp [scanSel, hx, ← hf]
        | false => simp [scanSel, hx, ← hf, ih']

/-- Core congruence for `check_self`: two fold states of the same well-formed
graph agree at every index whose fold counters are compatible.  Star scans
skip every star instance — in particular every plus-head star — so the only
ways a fold counter can be observed are a star reading its own list (guarded
by the compatibility hypothesis) and a plus delegating to its wrapped state
(which `WF.stateSafe` keeps away from plus heads). -/
theorem check_self_congr (g₀ : Graph) (W : WF g₀) (gA gB : Graph)
    (kA kB : Nat → Nat) (FA : FoldSt g₀ gA kA) (FB : FoldSt g₀ gB kB) :
    ∀ (fuel : Nat) (j : Nat) (e : Option Char),
      (IsPlusHead g₀ j → CntOk kA kB j) →
      check_self fuel gA j e = check_self fuel gB j e := by
  intro fuel
  induction fuel with
  | zero => intro j e _; rfl
  | succ fuel ih =>
    have hstar : ∀ i, isStarIdx gA i = isStarIdx gB i := by
      intro i
      cases h₀ : g₀[i]? with
      | none => rw [isStarIdx, isStarIdx, FA.get_none h₀, FB.get_none h₀]
      | some n₀ => rw [isStarIdx, isStarIdx, FA.get_eq h₀, FB.get_eq h₀]
    intro j e hcnt
    cases h₀ : g₀[j]? with
    | none =>
      rw [show check_self (fuel + 1) gA j e = Except.error MErr.attrError by
        simp [check_self, FA.get_none h₀]]
      rw [show check_self (fuel + 1) gB j e = Except.error MErr.attrError by
        simp [check_self, FB.get_none h₀]]
    | some n₀ =>
      have hA := FA.get_eq h₀
      have hB := FB.get_eq h₀
      cases hknd : n₀.kind with
      | start =>
        rw [hknd] at hA hB
        simp [check_self, hA, hB]
      | termination =>
        rw [hknd] at hA hB
        simp [check_self, hA, hB]
      | dot =>
        rw [hknd] at hA hB
        simp [check_self, hA, hB]
      | ascii sym =>
        rw [hknd] at hA hB
        simp [check_self, hA, hB]
      | plus st =>
        rw [hknd] at hA hB
        cases st with
        | none => simp [check_self, hA, hB]
        | some j2 =>
          have h₀' : g₀[j]? = some (Node.mk (Kind.plus (some j2)) n₀.next) := by
            rw [h₀, ← hknd]
          have hnotPH : ¬ IsPlusHead g₀ j2 := W.stateSafe j j2 n₀.next h₀'
          have hrec := ih j2 e (fun h => absurd h hnotPH)
          simp [check_self, hA, hB, hrec]
      | star st =>
        rw [hknd] at hA hB
        have hself : ∀ l : List (Option Nat),
            starScanWith gA (fun i => check_self fuel gA i e) l =
              starScanWith gB (fun i => check_self fuel gB i e) l := by
          intro l
          refine starScanWith_congr gA gB _ _ hstar l ?_
          intro i _ hns
          refine ih i e (fun hPH => absurd (isStarIdx_of_head W FA hPH) ?_)
          simp [hns]
        rw [show check_self (fuel + 1) gA j e =
            starScanWith gA (fun i => check_self fuel gA i e)
              (n₀.next ++ repBlk (blockOf g₀ j) (kA j)) by
          simp [check_self, hA]]
        rw [show check_self (fuel + 1) gB j e =
            starScanWith gB (fun i => check_self fuel gB i e)
              (n₀.next ++ repBlk (blockOf g₀ j) (kB j)) by
          simp [check_self, hB]]
        by_cases hPH : IsPlusHead g₀ j
        · rcases hcnt hPH with ⟨hz1, hz2⟩ | ⟨hp1, hp2⟩
          · rw [hz1, hz2]
            exact hself _
          · obtain ⟨a, ha⟩ : ∃ a, kA j = a + 1 :=
              ⟨kA j - 1, (Nat.succ_pred_eq_of_pos hp1).symm⟩
            obtain ⟨b, hb⟩ : ∃ b, kB j = b + 1 :=
              ⟨kB j - 1, (Nat.succ_pred_eq_of_pos hp2).symm⟩
            rw [ha, hb, starScanWith_append, starScanWith_append,
              starScanWith_repBlk, starScanWith_repBlk, hself n₀.next,
              hself (blockOf g₀ j)]
        · rw [FA.phz j hPH, FB.phz j hPH]
          exact hself _

theorem scanSel_mem {fuel : Nat} {g : Graph} {e : Option Char} :
    ∀ {l : List (Option Nat)} {j : Nat},
      scanSel fuel g l e = Except.ok (some j) → some j ∈ l := by
  intro l
  induction l with
  | nil => intro j h; cases h
  | cons m rest ih =>
    intro j h
    cases m with
    | none => cases h
    | some j' =>
      rw [scanSel] at h
      cases hx : check_self fuel g j' e with
      | error er => rw [hx] at h; cases h
      | ok b =>
        cases b with
        | true =>
          rw [hx] at h
          cases h
          exact List.mem_cons_self _ _
        | false =>
          rw [hx] at h
          exact List.mem_cons_of_mem _ (ih h)

theorem mem_repBlk {B : List (Option Nat)} {x : Option Nat} :
    ∀ {n : Nat}, x ∈ repBlk B n → x ∈ B := by
  intro n
  induction n with
  | zero => intro h; cases h
  | succ m ih =>
    intro h
    rw [repBlk_succ] at h
    rcases List.mem_append.mp h with h | h
    · exact ih h
    · exact h

theorem nextOf_eq {g : Graph} {i : Nat} {n : Node} (h : g[i]? = some n) :
    nextOf g i = n.next := by
  unfold nextOf
  rw [h]

/-- Performing the lazy fold of a plus node with nonempty successor block
advances the fold state by one copy of that block on the plus-head star. -/
theorem plusFold_ok {g₀ gA : Graph} {kA : Nat → Nat} (W : WF g₀)
    (FA : FoldSt g₀ gA kA) {p S : Nat} {st : Option Nat}
    {t : List (Option Nat)} (ht : t ≠ [])
    (hp : g₀[p]? = some (Node.mk (Kind.plus st) (some S :: t))) :
    ∃ gA', plusFold gA (some S :: t) = Except.ok gA' ∧
      FoldSt g₀ gA' (fun i => if i = S then kA S + 1 else kA i) := by
  obtain ⟨st2, hS⟩ := W.plusHead p st S t hp
  unfold kindOf at hS
  cases h₀S : g₀[S]? with
  | none => rw [h₀S] at hS; cases hS
  | some nS =>
    rw [h₀S] at hS
    simp only [Option.map_some'] at hS
    injection hS with hS
    have hSlt : S < g₀.length := by
      by_contra hge
      rw [List.getElem?_eq_none (Nat.le_of_not_lt hge)] at h₀S
      cases h₀S
    have hSlt' : S < gA.length := FA.len ▸ hSlt
    have hgetS := FA.get_eq h₀S
    have hblk : blockOf g₀ S = t := blockOf_owner W hp
    obtain ⟨t1, t2, rfl⟩ : ∃ t1 t2, t = t1 :: t2 := by
      cases t with
      | nil => exact absurd rfl ht
      | cons t1 t2 => exact ⟨t1, t2, rfl⟩
    refine ⟨gA.set S (Node.mk nS.kind
      ((nS.next ++ repBlk (blockOf g₀ S) (kA S)) ++ (t1 :: t2))), ?_, ?_⟩
    · rw [show plusFold gA (some S :: t1 :: t2) =
          (match gA[S]? with
           | none => Except.error MErr.attrError
           | some hn =>
             match hn.kind with
             | Kind.termination => Except.error MErr.attrError
             | _ => Except.ok (gA.set S ⟨hn.kind, hn.next ++ (t1 :: t2)⟩)) from rfl]
      rw [hgetS]
      simp only
      rw [hS]
    · constructor
      · rw [List.length_set]
        exact FA.len
      · intro i
        by_cases hi : i = S
        · subst hi
          unfold kindOf
          rw [List.getElem?_set_self hSlt', h₀S]
          simp [hS]
        · unfold kindOf
          rw [List.getElem?_set_ne (fun h => hi h.symm)]
          exact FA.kindEq i
      · intro i
        by_cases hi : i = S
        · subst hi
          rw [show nextOf (gA.set i (Node.mk nS.kind
              ((nS.next ++ repBlk (blockOf g₀ i) (kA i)) ++ (t1 :: t2)))) i =
              (nS.next ++ repBlk (blockOf g₀ i) (kA i)) ++ (t1 :: t2) by
            unfold nextOf
            rw [List.getElem?_set_self hSlt']]
          rw [nextOf_eq h₀S]
          simp [hblk, repBlk_succ, List.append_assoc]
        · rw [show nextOf (gA.set S (Node.mk nS.kind
              ((nS.next ++ repBlk (blockOf g₀ S) (kA S)) ++ (t1 :: t2)))) i =
              nextOf gA i by
            unfold nextOf
            rw [List.getElem?_set_ne (fun h => hi h.symm)]]
          rw [if_neg hi]
          exact FA.nexts i
      · intro i hnh
        by_cases hi : i = S
        · subst hi
          exact absurd ⟨p, st, t1 :: t2, hp⟩ hnh
        · rw [if_neg hi]
          exact FA.phz i hnh

theorem check_next_eq_scan {fuel : Nat} {g : Graph} {i : Nat} {e : Option Char}
    {n : Node} (h : g[i]? = some n)
    (hknp : ∀ st, n.kind ≠ Kind.plus st) (hknt : n.kind ≠ Kind.termination) :
    check_next fuel g i e = (g, scanSel fuel g n.next.reverse e) := by
  unfold check_next
  rw [h]
  rcases n with ⟨kd, nx⟩
  cases kd with
  | start => rfl
  | termination => exact absurd rfl hknt
  | dot => rfl
  | ascii sym => rfl
  | star st => rfl
  | plus st => exact absurd rfl (hknp st)

theorem check_next_eq_term {fuel : Nat} {g : Graph} {i : Nat} {e : Option Char}
    {nx : List (Option Nat)} (h : g[i]? = some (Node.mk Kind.termination nx)) :
    check_next fuel g i e = (g, Except.error MErr.attrError) := by
  unfold check_next
  rw [h]

theorem check_next_eq_none {fuel : Nat} {g : Graph} {i : Nat} {e : Option Char}
    (h : g[i]? = none) :
    check_next fuel g i e = (g, Except.error MErr.attrError) := by
  unfold check_next
  rw [h]

theorem check_next_eq_plus {fuel : Nat} {g : Graph} {i : Nat} {e : Option Char}
    {st : Option Nat} {nx : List (Option Nat)}
    (h : g[i]? = some (Node.mk (Kind.plus st) nx)) :
    check_next fuel g i e =
      (match plusFold g nx with
       | Except.error er => (g, Except.error er)
       | Except.ok g' =>
         match g'[i]? with
         | none => (g', Except.error MErr.attrError)
         | some n' => (g', scanSel fuel g' n'.next.reverse e)) := by
  unfold check_next
  rw [h]

/-- A plus-head star occurring in the own list of a node that is not a plus
can only be the node itself. -/
theorem base_member_cnt {g₀ : Graph} (W : WF g₀) {i j : Nat} {n₀ : Node}
    (h₀ : g₀[i]? = some n₀) (hknp : ∀ st, n₀.kind ≠ Kind.plus st)
    (hmem : some j ∈ n₀.next) (hPH : IsPlusHead g₀ j) : i = j := by
  rcases W.occSafe i j (by rw [nextOf_eq h₀]; exact hmem) hPH with ⟨st, t, hplus⟩ | h
  · rw [h₀] at hplus
    injection hplus with hplus
    exact absurd (congrArg Node.kind hplus) (hknp st)
  · exact h

theorem check_next_plus_result {fuel : Nat} {g : Graph} {i : Nat}
    {e : Option Char} {st : Option Nat} {nx : List (Option Nat)} {g' : Graph}
    (h : g[i]? = some (Node.mk (Kind.plus st) nx))
    (hfold : plusFold g nx = Except.ok g') {n' : Node} (hget : g'[i]? = some n') :
    check_next fuel g i e = (g', scanSel fuel g' n'.next.reverse e) := by
  simp [check_next, h, hfold, hget]

theorem check_next_plus_err {fuel : Nat} {g : Graph} {i : Nat}
    {e : Option Char} {st : Option Nat} {nx : List (Option Nat)} {er : MErr}
    (h : g[i]? = some (Node.mk (Kind.plus st) nx))
    (hfold : plusFold g nx = Except.error er) :
    check_next fuel g i e = (g, Except.error er) := by
  simp [check_next, h, hfold]

/-- Lockstep congruence for `check_next`: from compatible fold states the two
graphs produce the same transition outcome, the mutated graphs are again fold
states with compatible counters, and any selected node is counter-compatible
(the fold performed on a plus node raises both counters of its head star
together; everything else leaves the counters alone). -/
theorem check_next_congr (g₀ : Graph) (W : WF g₀) (gA gB : Graph)
    (kA kB : Nat → Nat) (FA : FoldSt g₀ gA kA) (FB : FoldSt g₀ gB kB)
    (TA : TailCompat g₀ kA) (TB : TailCompat g₀ kB)
    (fuel : Nat) (i : Nat) (e : Option Char)
    (hcur : IsPlusHead g₀ i → CntOk kA kB i) :
    ∃ kA' kB',
      FoldSt g₀ (check_next fuel gA i e).1 kA' ∧
      FoldSt g₀ (check_next fuel gB i e).1 kB' ∧
      TailCompat g₀ kA' ∧ TailCompat g₀ kB' ∧
      (check_next fuel gA i e).2 = (check_next fuel gB i e).2 ∧
      ∀ j, (check_next fuel gA i e).2 = Except.ok (some j) →
        IsPlusHead g₀ j → CntOk kA' kB' j := by
  cases h₀ : g₀[i]? with
  | none =>
    rw [check_next_eq_none (FA.get_none h₀), check_next_eq_none (FB.get_none h₀)]
    exact ⟨kA, kB, FA, FB, TA, TB, rfl, fun j h => by cases h⟩
  | some n₀ =>
    have hA := FA.get_eq h₀
    have hB := FB.get_eq h₀
    cases hknd : n₀.kind with
    | termination =>
      rw [hknd] at hA hB
      rw [check_next_eq_term hA, check_next_eq_term hB]
      exact ⟨kA, kB, FA, FB, TA, TB, rfl, fun j h => by cases h⟩
    | plus st =>
      have hp0 : g₀[i]? = some (Node.mk (Kind.plus st) n₀.next) := by
        rw [h₀, ← hknd]
      have hiPH : ¬ IsPlusHead g₀ i :=
        not_head_of_plus W (by unfold kindOf; rw [hp0, Option.map_some'])
      have hA' : gA[i]? = some (Node.mk (Kind.plus st) n₀.next) :=
        (FA.get_eq_of_not_head hiPH).trans hp0
      have hB' : gB[i]? = some (Node.mk (Kind.plus st) n₀.next) :=
        (FB.get_eq_of_not_head hiPH).trans hp0
      cases hnx : n₀.next with
      | nil =>
        rw [hnx] at hA' hB'
        rw [check_next_plus_result hA' rfl hA', check_next_plus_result hB' rfl hB']
        exact ⟨kA, kB, FA, FB, TA, TB, rfl, fun j h => by simp [scanSel] at h⟩
      | cons hd tl =>
        cases htl : tl with
        | nil =>
          rw [htl] at hnx
          rw [hnx] at hA' hB'
          rw [check_next_plus_result hA' rfl hA', check_next_plus_result hB' rfl hB']
          refine ⟨kA, kB, FA, FB, TA, TB, ?_, ?_⟩
          · refine scanSel_congr fuel gA gB e _ ?_
            intro j hj
            have hjhd : hd = some j := by
              rcases List.mem_cons.mp (List.mem_reverse.mp hj) with h | h
              · exact h.symm
              · cases h
            refine check_self_congr g₀ W gA gB kA kB FA FB fuel j e ?_
            intro hPHj
            have hT : g₀[i]? = some (Node.mk (Kind.plus st) (some j :: [])) := by
              rw [hp0, hnx, hjhd]
            exact Or.inl ⟨TA i st j [] hT rfl, TB i st j [] hT rfl⟩
          · intro j hj hPHj
            have hjmem := scanSel_mem hj
            have hjhd : hd = some j := by
              rcases List.mem_cons.mp (List.mem_reverse.mp hjmem) with h | h
              · exact h.symm
              · cases h
            have hT : g₀[i]? = some (Node.mk (Kind.plus st) (some j :: [])) := by
              rw [hp0, hnx, hjhd]
            exact Or.inl ⟨TA i st j [] hT rfl, TB i st j [] hT rfl⟩
        | cons t1 t2 =>
          rw [htl] at hnx
          cases hd with
          | none =>
            rw [hnx] at hA' hB'
            rw [check_next_plus_err hA' rfl, check_next_plus_err hB' rfl]
            exact ⟨kA, kB, FA, FB, TA, TB, rfl, fun j h => by cases h⟩
          | some S =>
            rw [hnx] at hA' hB'
            have hp : g₀[i]? = some (Node.mk (Kind.plus st) (some S :: t1 :: t2)) := by
              rw [hp0, hnx]
            have htne : (t1 :: t2 : List (Option Nat)) ≠ [] := by
              intro h; cases h
            obtain ⟨gA', hfoldA, FA'⟩ := plusFold_ok W FA htne hp
            obtain ⟨gB', hfoldB, FB'⟩ := plusFold_ok W FB htne hp
            have hgetA' : gA'[i]? = some (Node.mk (Kind.plus st) (some S :: t1 :: t2)) := by
              rw [FA'.get_eq_of_not_head hiPH, hp]
            have hgetB' : gB'[i]? = some (Node.mk (Kind.plus st) (some S :: t1 :: t2)) := by
              rw [FB'.get_eq_of_not_head hiPH, hp]
            rw [check_next_plus_result hA' hfoldA hgetA',
              check_next_plus_result hB' hfoldB hgetB']
            have hTA' : TailCompat g₀ (fun x => if x = S then kA S + 1 else kA x) := by
              intro q stq j tq hq hteq
              by_cases hjS : j = S
              · subst hjS
                have := W.headTails q i stq st j tq (t1 :: t2) hq hp
                rw [hteq] at this
                cases this
              · simp only [if_neg hjS]
                exact TA q stq j tq hq hteq
            have hTB' : TailCompat g₀ (fun x => if x = S then kB S + 1 else kB x) := by
              intro q stq j tq hq hteq
              by_cases hjS : j = S
              · subst hjS
                have := W.headTails q i stq st j tq (t1 :: t2) hq hp
                rw [hteq] at this
                cases this
              · simp only [if_neg hjS]
                exact TB q stq j tq hq hteq
            have hcnt' : ∀ j, some j ∈ (some S :: t1 :: t2 : List (Option Nat)).reverse →
                IsPlusHead g₀ j → CntOk (fun x => if x = S then kA S + 1 else kA x)
                  (fun x => if x = S then kB S + 1 else kB x) j := by
              intro j hj hPHj
              rcases List.mem_cons.mp (List.mem_reverse.mp hj) with h | h
              · cases h
                exact Or.inr ⟨by simp, by simp⟩
              · exact absurd hPHj (W.tailSafe i st (some S) (t1 :: t2) j hp h)
            refine ⟨_, _, FA', FB', hTA', hTB', ?_, ?_⟩
            · refine scanSel_congr fuel gA' gB' e _ ?_
              intro j hj
              exact check_self_congr g₀ W gA' gB' _ _ FA' FB' fuel j e (hcnt' j hj)
            · intro j hj hPHj
              exact hcnt' j (scanSel_mem hj) hPHj
    | start =>
      rw [hknd] at hA hB
      rw [check_next_eq_scan hA (fun st h => by cases h) (fun h => by cases h),
        check_next_eq_scan hB (fun st h => by cases h) (fun h => by cases h)]
      have hknp : ∀ st, n₀.kind ≠ Kind.plus st := fun st h => by
        rw [hknd] at h; cases h
      have hiPH : ¬ IsPlusHead g₀ i := by
        intro hPH
        obtain ⟨p, stp, t, hp⟩ := hPH
        obtain ⟨st2, hk⟩ := W.plusHead p stp i t hp
        unfold kindOf at hk
        rw [h₀] at hk
        simp only [Option.map_some'] at hk
        injection hk with hk
        rw [hknd] at hk
        cases hk
      rw [FA.phz i hiPH, FB.phz i hiPH, repBlk_zero, List.append_nil]
      refine ⟨kA, kB, FA, FB, TA, TB, ?_, ?_⟩
      · refine scanSel_congr fuel gA gB e _ ?_
        intro j hj
        refine check_self_congr g₀ W gA gB kA kB FA FB fuel j e ?_
        intro hPHj
        cases base_member_cnt W h₀ hknp (List.mem_reverse.mp hj) hPHj
        exact hcur hPHj
      · intro j hj hPHj
        cases base_member_cnt W h₀ hknp (List.mem_reverse.mp (scanSel_mem hj)) hPHj
        exact hcur hPHj
    | dot =>
      rw [hknd] at hA hB
      rw [check_next_eq_scan hA (fun st h => by cases h) (fun h => by cases h),
        check_next_eq_scan hB (fun st h => by cases h) (fun h => by cases h)]
      have hknp : ∀ st, n₀.kind ≠ Kind.plus st := fun st h => by
        rw [hknd] at h; cases h
      have hiPH : ¬ IsPlusHead g₀ i := by
        intro hPH
        obtain ⟨p, stp, t, hp⟩ := hPH
        obtain ⟨st2, hk⟩ := W.plusHead p stp i t hp
        unfold kindOf at hk
        rw [h₀] at hk
        simp only [Option.map_some'] at hk
        injection hk with hk
        rw [hknd] at hk
        cases hk
      rw [FA.phz i hiPH, FB.phz i hiPH, repBlk_zero, List.append_nil]
      refine ⟨kA, kB, FA, FB, TA, TB, ?_, ?_⟩
      · refine scanSel_congr fuel gA gB e _ ?_
        intro j hj
        refine check_self_congr g₀ W gA gB kA kB FA FB fuel j e ?_
        intro hPHj
        cases base_member_cnt W h₀ hknp (List.mem_reverse.mp hj) hPHj
        exact hcur hPHj
      · intro j hj hPHj
        cases base_member_cnt W h₀ hknp (List.mem_reverse.mp (scanSel_mem hj)) hPHj
        exact hcur hPHj
    | ascii sym =>
      rw [hknd] at hA hB
      rw [check_next_eq_scan hA (fun st h => by cases h) (fun h => by cases h),
        check_next_eq_scan hB (fun st h => by cases h) (fun h => by cases h)]
      have hknp : ∀ st, n₀.kind ≠ Kind.plus st := fun st h => by
        rw [hknd] at h; cases h
      have hiPH : ¬ IsPlusHead g₀ i := by
        intro hPH
        obtain ⟨p, stp, t, hp⟩ := hPH
        obtain ⟨st2, hk⟩ := W.plusHead p stp i t hp
        unfold kindOf at hk
        rw [h₀] at hk
        simp only [Option.map_some'] at hk
        injection hk with hk
        rw [hknd] at hk
        cases hk
      rw [FA.phz i hiPH, FB.phz i hiPH, repBlk_zero, List.append_nil]
      refine ⟨kA, kB, FA, FB, TA, TB, ?_, ?_⟩
      · refine scanSel_congr fuel gA gB e _ ?_
        intro j hj
        refine check_self_congr g₀ W gA gB kA kB FA FB fuel j e ?_
        intro hPHj
        cases base_member_cnt W h₀ hknp (List.mem_reverse.mp hj) hPHj
        exact hcur hPHj
      · intro j hj hPHj
        cases base_member_cnt W h₀ hknp (List.mem_reverse.mp (scanSel_mem hj)) hPHj
        exact hcur hPHj
    | star st =>
      rw [hknd] at hA hB
      rw [check_next_eq_scan hA (fun st2 h => by cases h) (fun h => by cases h),
        check_next_eq_scan hB (fun st2 h => by cases h) (fun h => by cases h)]
      have hknp : ∀ st2, n₀.kind ≠ Kind.plus st2 := fun st2 h => by
        rw [hknd] at h; cases h
      have hbase : scanSel fuel gA n₀.next.reverse e =
          scanSel fuel gB n₀.next.reverse e := by
        refine scanSel_congr fuel gA gB e _ ?_
        intro j hj
        refine check_self_congr g₀ W gA gB kA kB FA FB fuel j e ?_
        intro hPHj
        cases base_member_cnt W h₀ hknp (List.mem_reverse.mp hj) hPHj
        exact hcur hPHj
      refine ⟨kA, kB, FA, FB, TA, TB, ?_, ?_⟩
      · by_cases hPH : IsPlusHead g₀ i
        · rcases hcur hPH with ⟨hz1, hz2⟩ | ⟨hp1, hp2⟩
          · rw [hz1, hz2, repBlk_zero, List.append_nil]
            exact hbase
          · obtain ⟨a, ha⟩ : ∃ a, kA i = a + 1 :=
              ⟨kA i - 1, (Nat.succ_pred_eq_of_pos hp1).symm⟩
            obtain ⟨b, hb⟩ : ∃ b, kB i = b + 1 :=
              ⟨kB i - 1, (Nat.succ_pred_eq_of_pos hp2).symm⟩
            have hblock : scanSel fuel gA (blockOf g₀ i).reverse e =
                scanSel fuel gB (blockOf g₀ i).reverse e := by
              obtain ⟨q, stq, hq⟩ := blockOf_spec W hPH
              refine scanSel_congr fuel gA gB e _ ?_
              intro j hj
              refine check_self_congr g₀ W gA gB kA kB FA FB fuel j e ?_
              intro hPHj
              exact absurd hPHj
                (W.tailSafe q stq (some i) (blockOf g₀ i) j hq
                  (List.mem_reverse.mp hj))
            rw [ha, hb, List.reverse_append, List.reverse_append,
              reverse_repBlk, reverse_repBlk, scanSel_append, scanSel_append,
              scanSel_repBlk, scanSel_repBlk, hbase, hblock]
        · rw [FA.phz i hPH, FB.phz i hPH, repBlk_zero, List.append_nil]
          exact hbase
      · intro j hj hPHj
        have hmem := List.mem_reverse.mp (scanSel_mem hj)
        rcases List.mem_append.mp hmem with hmem | hmem
        · cases base_member_cnt W h₀ hknp hmem hPHj
          exact hcur hPHj
        · by_cases hPH : IsPlusHead g₀ i
          · obtain ⟨q, stq, hq⟩ := blockOf_spec W hPH
            exact absurd hPHj
              (W.tailSafe q stq (some i) (blockOf g₀ i) j hq (mem_repBlk hmem))
          · rw [FA.phz i hPH, repBlk_zero] at hmem
            cases hmem

theorem isTermIdx_congr {g₀ gA gB : Graph} {kA kB : Nat → Nat}
    (FA : FoldSt g₀ gA kA) (FB : FoldSt g₀ gB kB) (j : Nat) :
    isTermIdx gA j = isTermIdx gB j := by
  unfold isTermIdx
  cases h₀ : g₀[j]? with
  | none => rw [FA.get_none h₀, FB.get_none h₀]
  | some n₀ => rw [FA.get_eq h₀, FB.get_eq h₀]

theorem matchLoop_nil_err {fuel : Nat} {g : Graph} {cur : Nat} {g' : Graph}
    {er : MErr} (h : check_next fuel g cur none = (g', Except.error er)) :
    matchLoop fuel g cur [] = (g', Except.error er) := by
  simp only [matchLoop]
  rw [h]

theorem matchLoop_nil_rej {fuel : Nat} {g : Graph} {cur : Nat} {g' : Graph}
    (h : check_next fuel g cur none = (g', Except.ok none)) :
    matchLoop fuel g cur [] = (g', Except.ok false) := by
  simp only [matchLoop]
  rw [h]

theorem matchLoop_nil_sel {fuel : Nat} {g : Graph} {cur : Nat} {g' : Graph}
    {j : Nat} (h : check_next fuel g cur none = (g', Except.ok (some j))) :
    matchLoop fuel g cur [] = (g', Except.ok (isTermIdx g' j)) := by
  simp only [matchLoop]
  rw [h]

theorem matchLoop_cons_err {fuel : Nat} {g : Graph} {cur : Nat} {c : Char}
    {rest : List Char} {g' : Graph} {er : MErr}
    (h : check_next fuel g cur (some c) = (g', Except.error er)) :
    matchLoop fuel g cur (c :: rest) = (g', Except.error er) := by
  simp only [matchLoop]
  rw [h]

theorem matchLoop_cons_rej {fuel : Nat} {g : Graph} {cur : Nat} {c : Char}
    {rest : List Char} {g' : Graph}
    (h : check_next fuel g cur (some c) = (g', Except.ok none)) :
    matchLoop fuel g cur (c :: rest) = (g', Except.ok false) := by
  simp only [matchLoop]
  rw [h]

theorem matchLoop_cons_sel {fuel : Nat} {g : Graph} {cur : Nat} {c : Char}
    {rest : List Char} {g' : Graph} {j : Nat}
    (h : check_next fuel g cur (some c) = (g', Except.ok (some j))) :
    matchLoop fuel g cur (c :: rest) =
      (match check_self fuel g' j (some c) with
       | Except.error er => (g', Except.error er)
       | Except.ok false => (g', Except.ok false)
       | Except.ok true => matchLoop fuel g' j rest) := by
  simp only [matchLoop]
  rw [h]

/-- Lockstep congruence for the matcher's main loop: compatible fold states
yield identical outcomes, and the finishing graphs are again compatible fold
states. -/
theorem matchLoop_congr (g₀ : Graph) (W : WF g₀) :
    ∀ (s : List Char) (fuel cur : Nat) (gA gB : Graph) (kA kB : Nat → Nat),
      FoldSt g₀ gA kA → FoldSt g₀ gB kB →
      TailCompat g₀ kA → TailCompat g₀ kB →
      (IsPlusHead g₀ cur → CntOk kA kB cur) →
      (matchLoop fuel gA cur s).2 = (matchLoop fuel gB cur s).2 ∧
      ∃ kA' kB',
        FoldSt g₀ (matchLoop fuel gA cur s).1 kA' ∧
        FoldSt g₀ (matchLoop fuel gB cur s).1 kB' ∧
        TailCompat g₀ kA' ∧ TailCompat g₀ kB' := by
  intro s
  induction s with
  | nil =>
    intro fuel cur gA gB kA kB FA FB TA TB hcur
    obtain ⟨kA', kB', FA', FB', TA', TB', heq, hsel⟩ :=
      check_next_congr g₀ W gA gB kA kB FA FB TA TB fuel cur none hcur
    revert FA' FB' heq hsel
    generalize hCA : check_next fuel gA cur none = pA
    generalize hCB : check_next fuel gB cur none = pB
    obtain ⟨gA', rA⟩ := pA
    obtain ⟨gB', rB⟩ := pB
    intro FA' FB' heq hsel
    simp only at heq FA' FB'
    rw [← heq] at hCB
    cases rA with
    | error er =>
      rw [matchLoop_nil_err hCA, matchLoop_nil_err hCB]
      exact ⟨rfl, kA', kB', FA', FB', TA', TB'⟩
    | ok o =>
      cases o with
      | none =>
        rw [matchLoop_nil_rej hCA, matchLoop_nil_rej hCB]
        exact ⟨rfl, kA', kB', FA', FB', TA', TB'⟩
      | some j =>
        rw [matchLoop_nil_sel hCA, matchLoop_nil_sel hCB]
        refine ⟨?_, kA', kB', FA', FB', TA', TB'⟩
        simp only
        rw [isTermIdx_congr FA' FB' j]
  | cons c rest ih =>
    intro fuel cur gA gB kA kB FA FB TA TB hcur
    obtain ⟨kA', kB', FA', FB', TA', TB', heq, hsel⟩ :=
      check_next_congr g₀ W gA gB kA kB FA FB TA TB fuel cur (some c) hcur
    revert FA' FB' heq hsel
    generalize hCA : check_next fuel gA cur (some c) = pA
    generalize hCB : check_next fuel gB cur (some c) = pB
    obtain ⟨gA', rA⟩ := pA
    obtain ⟨gB', rB⟩ := pB
    intro FA' FB' heq hsel
    simp only at heq FA' FB' hsel
    rw [← heq] at hCB
    cases rA with
    | error er =>
      rw [matchLoop_cons_err hCA, matchLoop_cons_err hCB]
      exact ⟨rfl, kA', kB', FA', FB', TA', TB'⟩
    | ok o =>
      cases o with
      | none =>
        rw [matchLoop_cons_rej hCA, matchLoop_cons_rej hCB]
        exact ⟨rfl, kA', kB', FA', FB', TA', TB'⟩
      | some j =>
        have hjcnt : IsPlusHead g₀ j → CntOk kA' kB' j := hsel j rfl
        have hcs : check_self fuel gA' j (some c) = check_self fuel gB' j (some c) :=
          check_self_congr g₀ W gA' gB' kA' kB' FA' FB' fuel j (some c) hjcnt
        rw [matchLoop_cons_sel hCA, matchLoop_cons_sel hCB]
        rw [← hcs]
        cases hx : check_self fuel gA' j (some c) with
        | error er => exact ⟨rfl, kA', kB', FA', FB', TA', TB'⟩
        | ok b =>
          cases b with
          | false => exact ⟨rfl, kA', kB', FA', FB', TA', TB'⟩
          | true => exact ih fuel j gA' gB' kA' kB' FA' FB' TA' TB' hjcnt

theorem check_string_nil {fuel : Nat} {g : Graph} :
    check_string fuel g [] = (g, Except.error MErr.indexError) := rfl

theorem check_string_cons_err {fuel : Nat} {g : Graph} {c0 : Char}
    {rest : List Char} {g' : Graph} {er : MErr}
    (h : check_next fuel g 0 (some c0) = (g', Except.error er)) :
    check_string fuel g (c0 :: rest) = (g', Except.error er) := by
  simp only [check_string]
  rw [h]

theorem check_string_cons_rej {fuel : Nat} {g : Graph} {c0 : Char}
    {rest : List Char} {g' : Graph}
    (h : check_next fuel g 0 (some c0) = (g', Except.ok none)) :
    check_string fuel g (c0 :: rest) = (g', Except.ok false) := by
  simp only [check_string]
  rw [h]

theorem check_string_cons_sel {fuel : Nat} {g : Graph} {c0 : Char}
    {rest : List Char} {g' : Graph} {j : Nat}
    (h : check_next fuel g 0 (some c0) = (g', Except.ok (some j))) :
    check_string fuel g (c0 :: rest) = matchLoop fuel g' j (c0 :: rest) := by
  simp only [check_string]
  rw [h]

/-- Lockstep congruence for `check_string`: on compatible fold states of a
well-formed graph, the matcher returns the same outcome, and leaves behind
compatible fold states again. -/
theorem check_string_congr (g₀ : Graph) (W : WF g₀) (fuel : Nat)
    (s : List Char) (gA gB : Graph) (kA kB : Nat → Nat)
    (FA : FoldSt g₀ gA kA) (FB : FoldSt g₀ gB kB)
    (TA : TailCompat g₀ kA) (TB : TailCompat g₀ kB) :
    (check_string fuel gA s).2 = (check_string fuel gB s).2 ∧
    ∃ kA' kB',
      FoldSt g₀ (check_string fuel gA s).1 kA' ∧
      FoldSt g₀ (check_string fuel gB s).1 kB' ∧
      TailCompat g₀ kA' ∧ TailCompat g₀ kB' := by
  cases s with
  | nil =>
    rw [check_string_nil, check_string_nil]
    exact ⟨rfl, kA, kB, FA, FB, TA, TB⟩
  | cons c0 rest =>
    have h0PH : ¬ IsPlusHead g₀ 0 := by
      intro h
      obtain ⟨p, st, t, hp⟩ := h
      obtain ⟨st2, hk⟩ := W.plusHead p st 0 t hp
      rw [W.start0] at hk
      cases hk
    obtain ⟨kA', kB', FA', FB', TA', TB', heq, hsel⟩ :=
      check_next_congr g₀ W gA gB kA kB FA FB TA TB fuel 0 (some c0)
        (fun h => absurd h h0PH)
    revert FA' FB' heq hsel
    generalize hCA : check_next fuel gA 0 (some c0) = pA
    generalize hCB : check_next fuel gB 0 (some c0) = pB
    obtain ⟨gA', rA⟩ := pA
    obtain ⟨gB', rB⟩ := pB
    intro FA' FB' heq hsel
    simp only at heq FA' FB' hsel
    rw [← heq] at hCB
    cases rA with
    | error er =>
      rw [check_string_cons_err hCA, check_string_cons_err hCB]
      exact ⟨rfl, kA', kB', FA', FB', TA', TB'⟩
    | ok o =>
      cases o with
      | none =>
        rw [check_string_cons_rej hCA, check_string_cons_rej hCB]
        exact ⟨rfl, kA', kB', FA', FB', TA', TB'⟩
      | some j =>
        rw [check_string_cons_sel hCA, check_string_cons_sel hCB]
        exact matchLoop_congr g₀ W (c0 :: rest) fuel j gA' gB' kA' kB'
          FA' FB' TA' TB' (hsel j rfl)

/-! ## Compilation establishes the shape invariants -/

theorem get_lt {g : Graph} {i : Nat} {n : Node} (h : g[i]? = some n) :
    i < g.length := by
  by_contra hge
  rw [List.getElem?_eq_none (Nat.le_of_not_lt hge)] at h
  cases h

theorem get_append_new {g l : Graph} {p : Nat} :
    (g ++ l)[g.length + p]? = l[p]? := by
  rw [List.getElem?_append_right (Nat.le_add_right _ _), Nat.add_sub_cancel_left]

theorem isPlusHead_append_iff {g l : Graph} {j : Nat} :
    IsPlusHead (g ++ l) j ↔
      IsPlusHead g j ∨ ∃ (p : Nat) (st : Option Nat) (t : List (Option Nat)),
        l[p]? = some (Node.mk (Kind.plus st) (some j :: t)) := by
  constructor
  · rintro ⟨p, st, t, hp⟩
    by_cases hlt : p < g.length
    · rw [List.getElem?_append_left hlt] at hp
      exact Or.inl ⟨p, st, t, hp⟩
    · rw [List.getElem?_append_right (Nat.le_of_not_lt hlt)] at hp
      exact Or.inr ⟨p - g.length, st, t, hp⟩
  · rintro (⟨p, st, t, hp⟩ | ⟨p, st, t, hp⟩)
    · exact ⟨p, st, t, by rw [List.getElem?_append_left (get_lt hp)]; exact hp⟩
    · exact ⟨g.length + p, st, t, by rw [get_append_new]; exact hp⟩

theorem nextOf_append_left {g l : Graph} {i : Nat} (h : i < g.length) :
    nextOf (g ++ l) i = nextOf g i := by
  unfold nextOf
  rw [List.getElem?_append_left h]

theorem appendNext_get_ne {g : Graph} {p n i : Nat} (h : i ≠ p) :
    (appendNext g p n)[i]? = g[i]? := by
  unfold appendNext
  cases hg : g[p]? with
  | none => rfl
  | some m => exact List.getElem?_set_ne (fun hx => h hx.symm)

theorem appendNext_get_self {g : Graph} {p n : Nat} {m : Node}
    (h : g[p]? = some m) :
    (appendNext g p n)[p]? = some (Node.mk m.kind (m.next ++ [some n])) := by
  unfold appendNext
  rw [h]
  exact List.getElem?_set_self (get_lt h)

theorem appendNext_length {g : Graph} {p n : Nat} :
    (appendNext g p n).length = g.length := by
  unfold appendNext
  cases hg : g[p]? with
  | none => rfl
  | some m => exact List.length_set g p _

/-- Invariant maintained while `RegexFSM.__init__` builds the graph: the
well-formedness facts of `WF` (with owner uniqueness in place of mere
tail agreement), plus bookkeeping: every plus node's `next_states` starts
with its constructor star, and all references stay inside the arena. -/
structure CI (g : Graph) : Prop where
  start0 : kindOf g 0 = some Kind.start
  headUniq : ∀ (p q : Nat) (stp stq : Option Nat) (j : Nat)
    (tp tq : List (Option Nat)),
    g[p]? = some (Node.mk (Kind.plus stp) (some j :: tp)) →
    g[q]? = some (Node.mk (Kind.plus stq) (some j :: tq)) → p = q
  plusHead : ∀ (p : Nat) (st : Option Nat) (j : Nat) (t : List (Option Nat)),
    g[p]? = some (Node.mk (Kind.plus st) (some j :: t)) →
    ∃ st2, kindOf g j = some (Kind.star st2)
  plusShape : ∀ (p : Nat) (st : Option Nat) (l : List (Option Nat)),
    g[p]? = some (Node.mk (Kind.plus st) l) →
    ∃ (S : Nat) (t : List (Option Nat)), l = some S :: t
  tailSafe : ∀ (p : Nat) (st : Option Nat) (h : Option Nat)
    (t : List (Option Nat)) (j : Nat),
    g[p]? = some (Node.mk (Kind.plus st) (h :: t)) → some j ∈ t →
    ¬ IsPlusHead g j
  stateSafe : ∀ (p j : Nat) (l : List (Option Nat)),
    g[p]? = some (Node.mk (Kind.plus (some j)) l) → ¬ IsPlusHead g j
  occSafe : ∀ i j, some j ∈ nextOf g i → IsPlusHead g j →
    (∃ (st : Option Nat) (t : List (Option Nat)),
      g[i]? = some (Node.mk (Kind.plus st) (some j :: t))) ∨ i = j
  memBound : ∀ i j, some j ∈ nextOf g i → j < g.length
  stBound : ∀ (p j : Nat) (l : List (Option Nat)),
    g[p]? = some (Node.mk (Kind.plus (some j)) l) → j < g.length

theorem CI.toWF {g : Graph} (ci : CI g) : WF g := by
  refine ⟨ci.start0, ci.plusHead, ?_, ci.tailSafe, ci.stateSafe, ci.occSafe⟩
  intro p q stp stq j tp tq hp hq
  cases ci.headUniq p q stp stq j tp tq hp hq
  rw [hp] at hq
  injection hq with hq
  injection hq with _ hq
  exact (List.cons.inj hq).2

theorem CI_startGraph : CI startGraph := by
  have hget : ∀ (p : Nat) (n : Node), startGraph[p]? = some n →
      p = 0 ∧ n = Node.mk Kind.start [] := by
    intro p n h
    cases p with
    | zero =>
      refine ⟨rfl, ?_⟩
      injection h.symm
    | succ m =>
      cases h
  have hnx : ∀ i, nextOf startGraph i = [] := by
    intro i
    unfold nextOf
    cases h : startGraph[i]? with
    | none => rfl
    | some n =>
      obtain ⟨_, rfl⟩ := hget i n h
      rfl
  refine ⟨rfl, ?_, ?_, ?_, ?_, ?_, ?_, ?_, ?_⟩
  · intro p q stp stq j tp tq hp hq
    obtain ⟨_, hn⟩ := hget p _ hp
    cases hn
  · intro p st j t hp
    obtain ⟨_, hn⟩ := hget p _ hp
    cases hn
  · intro p st l hp
    obtain ⟨_, hn⟩ := hget p _ hp
    cases hn
  · intro p st h t j hp
    obtain ⟨_, hn⟩ := hget p _ hp
    cases hn
  · intro p j l hp
    obtain ⟨_, hn⟩ := hget p _ hp
    cases hn
  · intro i j hmem
    rw [hnx i] at hmem
    cases hmem
  · intro i j hmem
    rw [hnx i] at hmem
    cases hmem
  · intro p j l hp
    obtain ⟨_, hn⟩ := hget p _ hp
    cases hn

theorem PH_lt {g : Graph} (ci : CI g) {j : Nat} (h : IsPlusHead g j) :
    j < g.length := by
  obtain ⟨p, st, t, hp⟩ := h
  exact ci.memBound p j (by rw [nextOf_eq hp]; exact List.mem_cons_self _ _)

theorem nextOf_big {g : Graph} {i : Nat} (h : g.length ≤ i) : nextOf g i = [] := by
  unfold nextOf
  rw [List.getElem?_eq_none h]

theorem kindOf_append_left {g l : Graph} {i : Nat} (h : i < g.length) :
    kindOf (g ++ l) i = kindOf g i := by
  unfold kindOf
  rw [List.getElem?_append_left h]

theorem get_push_cases {g l : Graph} {q : Nat} {n : Node}
    (h : (g ++ l)[q]? = some n) :
    (q < g.length ∧ g[q]? = some n) ∨
      ∃ k, q = g.length + k ∧ l[k]? = some n := by
  by_cases hlt : q < g.length
  · rw [List.getElem?_append_left hlt] at h
    exact Or.inl ⟨hlt, h⟩
  · rw [List.getElem?_append_right (Nat.le_of_not_lt hlt)] at h
    exact Or.inr ⟨q - g.length, (Nat.add_sub_cancel' (Nat.le_of_not_lt hlt)).symm, h⟩

theorem node_kind_plus_absurd {n₁ : Node} {st : Option Nat}
    {l : List (Option Nat)} (hnotplus : ∀ st2, n₁.kind ≠ Kind.plus st2)
    (h : Node.mk (Kind.plus st) l = n₁) {C : Prop} : C :=
  absurd (show n₁.kind = Kind.plus st by rw [← h]) (hnotplus st)

/-- Pushing a single non-plus node whose members are either old in-arena
non-plus-head references or the fresh node's own index preserves the
compile-time invariant. -/
theorem push_single_CI {g : Graph} (ci : CI g) {n₁ : Node}
    (hnotplus : ∀ st, n₁.kind ≠ Kind.plus st)
    (hmem : ∀ j, some j ∈ n₁.next →
      (j < g.length ∧ ¬ IsPlusHead g j) ∨ j = g.length) :
    CI (g ++ [n₁]) := by
  have hPH : ∀ j, IsPlusHead (g ++ [n₁]) j ↔ IsPlusHead g j := by
    intro j
    rw [isPlusHead_append_iff]
    constructor
    · rintro (h | ⟨p, st, t, hp⟩)
      · exact h
      · cases p with
        | zero =>
          injection hp with hp
          exact absurd (congrArg Node.kind hp) (hnotplus st)
        | succ m => cases hp
    · exact Or.inl
  have htrans : ∀ (q : Nat) (m : Node), (g ++ [n₁])[q]? = some m →
      (q < g.length ∧ g[q]? = some m) ∨ (q = g.length ∧ m = n₁) := by
    intro q m h
    rcases get_push_cases h with ⟨hlt, hq⟩ | ⟨k, rfl, hk⟩
    · exact Or.inl ⟨hlt, hq⟩
    · cases k with
      | zero =>
        injection hk with hk
        exact Or.inr ⟨by omega, hk.symm⟩
      | succ m2 => cases hk
  have hnext : ∀ q, nextOf (g ++ [n₁]) q =
      if q < g.length then nextOf g q else if q = g.length then n₁.next else [] := by
    intro q
    by_cases hlt : q < g.length
    · rw [nextOf_append_left hlt, if_pos hlt]
    · rw [if_neg hlt]
      by_cases hq : q = g.length
      · subst hq
        rw [if_pos rfl]
        unfold nextOf
        rw [show (g ++ [n₁])[g.length]? = (g ++ [n₁])[g.length + 0]? by rfl,
          get_append_new]
        rfl
      · rw [if_neg hq]
        exact nextOf_big (by
          rw [List.length_append, List.length_singleton]
          omega)
  refine ⟨?_, ?_, ?_, ?_, ?_, ?_, ?_, ?_, ?_⟩
  · obtain ⟨n0, h0⟩ : ∃ n0, g[0]? = some n0 := by
      have hs := ci.start0
      unfold kindOf at hs
      cases h0 : g[0]? with
      | none => rw [h0] at hs; cases hs
      | some n0 => exact ⟨n0, rfl⟩
    rw [kindOf_append_left (get_lt h0)]
    exact ci.start0
  · intro p q stp stq j tp tq hp hq
    rcases htrans p _ hp with ⟨_, hp'⟩ | ⟨_, hp'⟩
    · rcases htrans q _ hq with ⟨_, hq'⟩ | ⟨_, hq'⟩
      · exact ci.headUniq p q stp stq j tp tq hp' hq'
      · exact node_kind_plus_absurd hnotplus hq'
    · exact node_kind_plus_absurd hnotplus hp'
  · intro p st j t hp
    rcases htrans p _ hp with ⟨_, hp'⟩ | ⟨_, hp'⟩
    · obtain ⟨st2, hk⟩ := ci.plusHead p st j t hp'
      have hjlt : j < g.length := by
        by_contra hge
        unfold kindOf at hk
        rw [List.getElem?_eq_none (Nat.le_of_not_lt hge)] at hk
        cases hk
      exact ⟨st2, by rw [kindOf_append_left hjlt]; exact hk⟩
    · exact node_kind_plus_absurd hnotplus hp'
  · intro p st l hp
    rcases htrans p _ hp with ⟨_, hp'⟩ | ⟨_, hp'⟩
    · exact ci.plusShape p st l hp'
    · exact node_kind_plus_absurd hnotplus hp'
  · intro p st h t j hp hj
    rcases htrans p _ hp with ⟨_, hp'⟩ | ⟨_, hp'⟩
    · rw [hPH j]
      exact ci.tailSafe p st h t j hp' hj
    · exact node_kind_plus_absurd hnotplus hp'
  · intro p j l hp
    rcases htrans p _ hp with ⟨_, hp'⟩ | ⟨_, hp'⟩
    · rw [hPH j]
      exact ci.stateSafe p j l hp'
    · exact node_kind_plus_absurd hnotplus hp'
  · intro i j hmem2 hPHj
    rw [hPH j] at hPHj
    rw [hnext i] at hmem2
    by_cases hlt : i < g.length
    · rw [if_pos hlt] at hmem2
      rcases ci.occSafe i j hmem2 hPHj with ⟨st, t, hi⟩ | hij
      · exact Or.inl ⟨st, t, by rw [List.getElem?_append_left hlt]; exact hi⟩
      · exact Or.inr hij
    · rw [if_neg hlt] at hmem2
      by_cases hq : i = g.length
      · rw [if_pos hq] at hmem2
        rcases hmem j hmem2 with ⟨_, hnPH⟩ | rfl
        · exact absurd hPHj hnPH
        · exact absurd (PH_lt ci hPHj) (Nat.lt_irrefl _)
      · rw [if_neg hq] at hmem2
        cases hmem2
  · intro i j hmem2
    rw [hnext i] at hmem2
    rw [List.length_append, List.length_singleton]
    by_cases hlt : i < g.length
    · rw [if_pos hlt] at hmem2
      have := ci.memBound i j hmem2
      omega
    · rw [if_neg hlt] at hmem2
      by_cases hq : i = g.length
      · rw [if_pos hq] at hmem2
        rcases hmem j hmem2 with ⟨hj, _⟩ | rfl
        · omega
        · omega
      · rw [if_neg hq] at hmem2
        cases hmem2
  · intro p j l hp
    rw [List.length_append, List.length_singleton]
    rcases htrans p _ hp with ⟨_, hp'⟩ | ⟨_, hp'⟩
    · have := ci.stBound p j l hp'
      omega
    · exact node_kind_plus_absurd hnotplus hp'

theorem isPlusHead_push_single {g : Graph} {n₁ : Node}
    (hnotplus : ∀ st, n₁.kind ≠ Kind.plus st) (j : Nat) :
    IsPlusHead (g ++ [n₁]) j ↔ IsPlusHead g j := by
  rw [isPlusHead_append_iff]
  constructor
  · rintro (h | ⟨p, st, t, hp⟩)
    · exact h
    · cases p with
      | zero =>
        injection hp with hp
        exact node_kind_plus_absurd hnotplus hp.symm
      | succ m => cases hp
  · exact Or.inl

theorem isPlusHead_push_pair {g : Graph} {tmp : Option Nat} (j : Nat) :
    IsPlusHead (g ++ [⟨Kind.star tmp, [tmp, some g.length]⟩,
      ⟨Kind.plus tmp, [some g.length]⟩]) j ↔ IsPlusHead g j ∨ j = g.length := by
  rw [isPlusHead_append_iff]
  constructor
  · rintro (h | ⟨p, st, t, hp⟩)
    · exact Or.inl h
    · cases p with
      | zero =>
        injection hp with hp
        injection hp with hk _
        cases hk
      | succ m =>
        cases m with
        | zero =>
          injection hp with hp
          injection hp with _ hn
          exact Or.inr (Option.some.inj (List.cons.inj hn).1).symm
        | succ m2 => cases hp
  · rintro (h | rfl)
    · exact Or.inl h
    · refine Or.inr ⟨1, tmp, [], rfl⟩

/-- Pushing the `PlusState` constructor pair (its inner star, then the plus
node pointing at it) preserves the compile-time invariant. -/
theorem push_pair_CI {g : Graph} (ci : CI g) {tmp : Option Nat}
    (htmp : ∀ t, tmp = some t → t < g.length ∧ ¬ IsPlusHead g t) :
    CI (g ++ [⟨Kind.star tmp, [tmp, some g.length]⟩,
      ⟨Kind.plus tmp, [some g.length]⟩]) := by
  set nS : Node := ⟨Kind.star tmp, [tmp, some g.length]⟩ with hnS
  set nP : Node := ⟨Kind.plus tmp, [some g.length]⟩ with hnP
  have htrans : ∀ (q : Nat) (m : Node), (g ++ [nS, nP])[q]? = some m →
      (q < g.length ∧ g[q]? = some m) ∨ (q = g.length ∧ m = nS) ∨
        (q = g.length + 1 ∧ m = nP) := by
    intro q m h
    rcases get_push_cases h with ⟨hlt, hq⟩ | ⟨k, rfl, hk⟩
    · exact Or.inl ⟨hlt, hq⟩
    · cases k with
      | zero =>
        injection hk with hk
        exact Or.inr (Or.inl ⟨by omega, hk.symm⟩)
      | succ m2 =>
        cases m2 with
        | zero =>
          injection hk with hk
          exact Or.inr (Or.inr ⟨rfl, hk.symm⟩)
        | succ m3 => cases hk
  have hPH : ∀ j, IsPlusHead (g ++ [nS, nP]) j ↔
      IsPlusHead g j ∨ j = g.length := fun j => isPlusHead_push_pair j
  have hnext : ∀ q, nextOf (g ++ [nS, nP]) q =
      if q < g.length then nextOf g q
      else if q = g.length then [tmp, some g.length]
      else if q = g.length + 1 then [some g.length] else [] := by
    intro q
    by_cases hlt : q < g.length
    · rw [nextOf_append_left hlt, if_pos hlt]
    · rw [if_neg hlt]
      by_cases hq : q = g.length
      · subst hq
        rw [if_pos rfl]
        unfold nextOf
        rw [show (g ++ [nS, nP])[g.length]? = (g ++ [nS, nP])[g.length + 0]? by rfl,
          get_append_new]
        rfl
      · rw [if_neg hq]
        by_cases hq1 : q = g.length + 1
        · subst hq1
          rw [if_pos rfl]
          unfold nextOf
          rw [get_append_new]
          rfl
        · rw [if_neg hq1]
          exact nextOf_big (by
            rw [List.length_append]
            simp only [List.length_cons, List.length_nil]
            omega)
  have hstar_np : ∀ st2, nS.kind ≠ Kind.plus st2 := by
    intro st2 h
    rw [hnS] at h
    cases h
  have hPinv : ∀ {st2 : Option Nat} {j2 : Nat} {t2 : List (Option Nat)},
      Node.mk (Kind.plus st2) (some j2 :: t2) = nP →
      st2 = tmp ∧ j2 = g.length ∧ t2 = [] := by
    intro st2 j2 t2 h
    rw [hnP] at h
    injection h with hk hn
    injection hk with hk
    have h1 := (List.cons.inj hn).1
    have h2 := (List.cons.inj hn).2
    exact ⟨hk, Option.some.inj h1, h2⟩
  refine ⟨?_, ?_, ?_, ?_, ?_, ?_, ?_, ?_, ?_⟩
  · obtain ⟨n0, h0⟩ : ∃ n0, g[0]? = some n0 := by
      have hs := ci.start0
      unfold kindOf at hs
      cases h0 : g[0]? with
      | none => rw [h0] at hs; cases hs
      | some n0 => exact ⟨n0, rfl⟩
    rw [kindOf_append_left (get_lt h0)]
    exact ci.start0
  · intro p q stp stq j tp tq hp hq
    rcases htrans p _ hp with ⟨hplt, hp'⟩ | ⟨hpL, hp'⟩ | ⟨hpP, hp'⟩
    · rcases htrans q _ hq with ⟨hqlt, hq'⟩ | ⟨hqL, hq'⟩ | ⟨hqP, hq'⟩
      · exact ci.headUniq p q stp stq j tp tq hp' hq'
      · exact node_kind_plus_absurd hstar_np hq'
      · obtain ⟨_, hjL, _⟩ := hPinv hq'
        have := ci.memBound p j
          (by rw [nextOf_eq hp']; exact List.mem_cons_self _ _)
        omega
    · exact node_kind_plus_absurd hstar_np hp'
    · rcases htrans q _ hq with ⟨hqlt, hq'⟩ | ⟨hqL, hq'⟩ | ⟨hqP, hq'⟩
      · obtain ⟨_, hjL, _⟩ := hPinv hp'
        have := ci.memBound q j
          (by rw [nextOf_eq hq']; exact List.mem_cons_self _ _)
        omega
      · exact node_kind_plus_absurd hstar_np hq'
      · omega
  · intro p st j t hp
    rcases htrans p _ hp with ⟨hplt, hp'⟩ | ⟨hpL, hp'⟩ | ⟨hpP, hp'⟩
    · obtain ⟨st2, hk⟩ := ci.plusHead p st j t hp'
      have hjlt : j < g.length := by
        by_contra hge
        unfold kindOf at hk
        rw [List.getElem?_eq_none (Nat.le_of_not_lt hge)] at hk
        cases hk
      exact ⟨st2, by rw [kindOf_append_left hjlt]; exact hk⟩
    · exact node_kind_plus_absurd hstar_np hp'
    · obtain ⟨_, hjL, _⟩ := hPinv hp'
      subst hjL
      refine ⟨tmp, ?_⟩
      unfold kindOf
      rw [show (g ++ [nS, nP])[g.length]? = (g ++ [nS, nP])[g.length + 0]? by rfl,
        get_append_new]
      rfl
  · intro p st l hp
    rcases htrans p _ hp with ⟨hplt, hp'⟩ | ⟨hpL, hp'⟩ | ⟨hpP, hp'⟩
    · exact ci.plusShape p st l hp'
    · exact node_kind_plus_absurd hstar_np hp'
    · rw [hnP] at hp'
      injection hp' with _ hn
      exact ⟨g.length, [], hn⟩
  · intro p st h t j hp hj
    rcases htrans p _ hp with ⟨hplt, hp'⟩ | ⟨hpL, hp'⟩ | ⟨hpP, hp'⟩
    · rw [hPH j]
      have hjlt := ci.memBound p j
        (by rw [nextOf_eq hp']; exact List.mem_cons_of_mem _ hj)
      rintro (hPHj | rfl)
      · exact ci.tailSafe p st h t j hp' hj hPHj
      · omega
    · exact node_kind_plus_absurd hstar_np hp'
    · rw [hnP] at hp'
      injection hp' with _ hn
      rw [(List.cons.inj hn).2] at hj
      cases hj
  · intro p j l hp
    rcases htrans p _ hp with ⟨hplt, hp'⟩ | ⟨hpL, hp'⟩ | ⟨hpP, hp'⟩
    · rw [hPH j]
      have hjlt := ci.stBound p j l hp'
      rintro (hPHj | rfl)
      · exact ci.stateSafe p j l hp' hPHj
      · omega
    · exact node_kind_plus_absurd hstar_np hp'
    · rw [hnP] at hp'
      injection hp' with hk _
      injection hk with hk
      obtain ⟨hjlt, hjPH⟩ := htmp j hk.symm
      rw [hPH j]
      rintro (hPHj | rfl)
      · exact hjPH hPHj
      · omega
  · intro i j hmem2 hPHj
    rw [hPH j] at hPHj
    rw [hnext i] at hmem2
    by_cases hlt : i < g.length
    · rw [if_pos hlt] at hmem2
      have hjlt := ci.memBound i j hmem2
      rcases hPHj with hPHj | rfl
      · rcases ci.occSafe i j hmem2 hPHj with ⟨st, t, hi⟩ | hij
        · exact Or.inl ⟨st, t, by rw [List.getElem?_append_left hlt]; exact hi⟩
        · exact Or.inr hij
      · omega
    · rw [if_neg hlt] at hmem2
      by_cases hq : i = g.length
      · rw [if_pos hq] at hmem2
        rcases List.mem_cons.mp hmem2 with hm | hm
        · obtain ⟨hjlt, hjPH⟩ := htmp j hm.symm
          rcases hPHj with hPHj | rfl
          · exact absurd hPHj hjPH
          · omega
        · rcases List.mem_cons.mp hm with hm2 | hm2
          · exact Or.inr (by rw [hq, Option.some.inj hm2])
          · cases hm2
      · rw [if_neg hq] at hmem2
        by_cases hq1 : i = g.length + 1
        · rw [if_pos hq1] at hmem2
          rcases List.mem_cons.mp hmem2 with hm | hm
          · refine Or.inl ⟨tmp, [], ?_⟩
            rw [hq1, Option.some.inj hm, get_append_new]
            rfl
          · cases hm
        · rw [if_neg hq1] at hmem2
          cases hmem2
  · intro i j hmem2
    rw [hnext i] at hmem2
    rw [List.length_append]
    simp only [List.length_cons, List.length_nil]
    by_cases hlt : i < g.length
    · rw [if_pos hlt] at hmem2
      have := ci.memBound i j hmem2
      omega
    · rw [if_neg hlt] at hmem2
      by_cases hq : i = g.length
      · rw [if_pos hq] at hmem2
        rcases List.mem_cons.mp hmem2 with hm | hm
        · obtain ⟨hjlt, _⟩ := htmp j hm.symm
          omega
        · rcases List.mem_cons.mp hm with hm2 | hm2
          · rw [Option.some.inj hm2]
            omega
          · cases hm2
      · rw [if_neg hq] at hmem2
        by_cases hq1 : i = g.length + 1
        · rw [if_pos hq1] at hmem2
          rcases List.mem_cons.mp hmem2 with hm | hm
          · rw [Option.some.inj hm]
            omega
          · cases hm
        · rw [if_neg hq1] at hmem2
          cases hmem2
  · intro p j l hp
    rw [List.length_append]
    simp only [List.length_cons, List.length_nil]
    rcases htrans p _ hp with ⟨hplt, hp'⟩ | ⟨hpL, hp'⟩ | ⟨hpP, hp'⟩
    · have := ci.stBound p j l hp'
      omega
    · exact node_kind_plus_absurd hstar_np hp'
    · rw [hnP] at hp'
      injection hp' with hk _
      injection hk with hk
      obtain ⟨hjlt, _⟩ := htmp j hk.symm
      omega

/-- Translating a plus node across an `appendNext`: the head is unchanged
(every plus list is nonempty and appends land at the end). -/
theorem plus_node_appendNext {g : Graph} (ci : CI g) {p n q : Nat}
    {st : Option Nat} {j : Nat} {t : List (Option Nat)}
    (hq : (appendNext g p n)[q]? = some (Node.mk (Kind.plus st) (some j :: t))) :
    ∃ t₀, g[q]? = some (Node.mk (Kind.plus st) (some j :: t₀)) ∧
      (t = t₀ ∨ t = t₀ ++ [some n]) := by
  by_cases hqp : q = p
  · subst hqp
    cases hg : g[q]? with
    | none =>
      rw [show appendNext g q n = g by unfold appendNext; rw [hg], hg] at hq
      cases hq
    | some m =>
      obtain ⟨mk0, mn0⟩ := m
      rw [appendNext_get_self hg] at hq
      injection hq with hq
      injection hq with hk hn
      simp only at hk hn
      subst hk
      obtain ⟨S, t', hshape⟩ := ci.plusShape q st mn0 hg
      subst hshape
      rw [List.cons_append] at hn
      have h1 : S = j := Option.some.inj (List.cons.inj hn).1
      have h2 : t' ++ [some n] = t := (List.cons.inj hn).2
      refine ⟨t', ?_, Or.inr h2.symm⟩
      rw [h1]
  · rw [appendNext_get_ne hqp] at hq
    exact ⟨t, hq, Or.inl rfl⟩

theorem isPlusHead_appendNext {g : Graph} (ci : CI g) {p n j : Nat} :
    IsPlusHead (appendNext g p n) j ↔ IsPlusHead g j := by
  constructor
  · rintro ⟨q, st, t, hq⟩
    obtain ⟨t₀, hq', _⟩ := plus_node_appendNext ci hq
    exact ⟨q, st, t₀, hq'⟩
  · rintro ⟨q, st, t, hq⟩
    by_cases hqp : q = p
    · subst hqp
      refine ⟨q, st, t ++ [some n], ?_⟩
      rw [appendNext_get_self hq]
      simp
    · exact ⟨q, st, t, by rw [appendNext_get_ne hqp]; exact hq⟩

theorem kindOf_appendNext {g : Graph} {p n i : Nat} :
    kindOf (appendNext g p n) i = kindOf g i := by
  by_cases hip : i = p
  · subst hip
    cases hg : g[i]? with
    | none =>
      rw [show appendNext g i n = g by unfold appendNext; rw [hg]]
    | some m =>
      unfold kindOf
      rw [appendNext_get_self hg, hg]
      rfl
  · unfold kindOf
    rw [appendNext_get_ne hip]

/-- Appending an in-arena non-plus-head reference to any node's
`next_states` preserves the compile-time invariant. -/
theorem appendNext_CI {g : Graph} (ci : CI g) {p n : Nat}
    (hn : n < g.length) (hnPH : ¬ IsPlusHead g n) : CI (appendNext g p n) := by
  have hPH : ∀ j, IsPlusHead (appendNext g p n) j ↔ IsPlusHead g j :=
    fun j => isPlusHead_appendNext ci
  have hnext : ∀ q, (q ≠ p → nextOf (appendNext g p n) q = nextOf g q) := by
    intro q hqp
    unfold nextOf
    rw [appendNext_get_ne hqp]
  refine ⟨?_, ?_, ?_, ?_, ?_, ?_, ?_, ?_, ?_⟩
  · rw [kindOf_appendNext]
    exact ci.start0
  · intro p1 q1 stp stq j tp tq hp1 hq1
    obtain ⟨tp0, hp1', _⟩ := plus_node_appendNext ci hp1
    obtain ⟨tq0, hq1', _⟩ := plus_node_appendNext ci hq1
    exact ci.headUniq p1 q1 stp stq j tp0 tq0 hp1' hq1'
  · intro p1 st j t hp1
    obtain ⟨t0, hp1', _⟩ := plus_node_appendNext ci hp1
    obtain ⟨st2, hk⟩ := ci.plusHead p1 st j t0 hp1'
    exact ⟨st2, by rw [kindOf_appendNext]; exact hk⟩
  · intro p1 st l hp1
    by_cases hqp : p1 = p
    · subst hqp
      cases hg : g[p1]? with
      | none =>
        rw [show appendNext g p1 n = g by unfold appendNext; rw [hg], hg] at hp1
        cases hp1
      | some m =>
        obtain ⟨mk0, mn0⟩ := m
        rw [appendNext_get_self hg] at hp1
        injection hp1 with hp1
        injection hp1 with hk hn2
        simp only at hk hn2
        subst hk
        obtain ⟨S, t', hshape⟩ := ci.plusShape p1 st mn0 hg
        subst hshape
        exact ⟨S, t' ++ [some n], hn2.symm⟩
    · rw [appendNext_get_ne hqp] at hp1
      exact ci.plusShape p1 st l hp1
  · intro p1 st h t j hp1 hj
    rw [hPH j]
    by_cases hqp : p1 = p
    · subst hqp
      cases hg : g[p1]? with
      | none =>
        rw [show appendNext g p1 n = g by unfold appendNext; rw [hg], hg] at hp1
        cases hp1
      | some m =>
        obtain ⟨mk0, mn0⟩ := m
        rw [appendNext_get_self hg] at hp1
        injection hp1 with hp1
        injection hp1 with hk hn2
        simp only at hk hn2
        subst hk
        obtain ⟨S, t', hshape⟩ := ci.plusShape p1 st mn0 hg
        subst hshape
        have ht : t = t' ++ [some n] := (List.cons.inj hn2).2.symm
        rw [ht] at hj
        rcases List.mem_append.mp hj with hj | hj
        · exact ci.tailSafe p1 st (some S) t' j hg hj
        · rcases List.mem_cons.mp hj with hj2 | hj2
          · rw [Option.some.inj hj2]
            exact hnPH
          · cases hj2
    · rw [appendNext_get_ne hqp] at hp1
      exact ci.tailSafe p1 st h t j hp1 hj
  · intro p1 j l hp1
    rw [hPH j]
    by_cases hqp : p1 = p
    · subst hqp
      cases hg : g[p1]? with
      | none =>
        rw [show appendNext g p1 n = g by unfold appendNext; rw [hg], hg] at hp1
        cases hp1
      | some m =>
        obtain ⟨mk0, mn0⟩ := m
        rw [appendNext_get_self hg] at hp1
        injection hp1 with hp1
        injection hp1 with hk _
        simp only at hk
        subst hk
        exact ci.stateSafe p1 j mn0 hg
    · rw [appendNext_get_ne hqp] at hp1
      exact ci.stateSafe p1 j l hp1
  · intro i j hmem hPHj
    rw [hPH j] at hPHj
    by_cases hip : i = p
    · subst hip
      cases hg : g[i]? with
      | none =>
        rw [show nextOf (appendNext g i n) i = [] by
          unfold nextOf appendNext; rw [hg, hg]] at hmem
        cases hmem
      | some m =>
        rw [show nextOf (appendNext g i n) i = m.next ++ [some n] by
          unfold nextOf; rw [appendNext_get_self hg]] at hmem
        rcases List.mem_append.mp hmem with hmem | hmem
        · rcases ci.occSafe i j (by rw [nextOf_eq hg]; exact hmem) hPHj with
            ⟨st, t, hi⟩ | hij
          · refine Or.inl ⟨st, t ++ [some n], ?_⟩
            rw [appendNext_get_self hi]
            simp
          · exact Or.inr hij
        · rcases List.mem_cons.mp hmem with hj2 | hj2
          · rw [← Option.some.inj hj2] at hnPH
            exact absurd hPHj hnPH
          · cases hj2
    · rw [hnext i hip] at hmem
      rcases ci.occSafe i j hmem hPHj with ⟨st, t, hi⟩ | hij
      · exact Or.inl ⟨st, t, by rw [appendNext_get_ne hip]; exact hi⟩
      · exact Or.inr hij
  · intro i j hmem
    rw [appendNext_length]
    by_cases hip : i = p
    · subst hip
      cases hg : g[i]? with
      | none =>
        rw [show nextOf (appendNext g i n) i = [] by
          unfold nextOf appendNext; rw [hg, hg]] at hmem
        cases hmem
      | some m =>
        rw [show nextOf (appendNext g i n) i = m.next ++ [some n] by
          unfold nextOf; rw [appendNext_get_self hg]] at hmem
        rcases List.mem_append.mp hmem with hmem | hmem
        · exact ci.memBound i j (by rw [nextOf_eq hg]; exact hmem)
        · rcases List.mem_cons.mp hmem with hj2 | hj2
          · rw [← Option.some.inj hj2] at hn
            exact hn
          · cases hj2
    · rw [hnext i hip] at hmem
      exact ci.memBound i j hmem
  · intro p1 j l hp1
    rw [appendNext_length]
    by_cases hqp : p1 = p
    · subst hqp
      cases hg : g[p1]? with
      | none =>
        rw [show appendNext g p1 n = g by unfold appendNext; rw [hg], hg] at hp1
        cases hp1
      | some m =>
        obtain ⟨mk0, mn0⟩ := m
        rw [appendNext_get_self hg] at hp1
        injection hp1 with hp1
        injection hp1 with hk _
        simp only at hk
        subst hk
        exact ci.stBound p1 j mn0 hg
    · rw [appendNext_get_ne hqp] at hp1
      exact ci.stBound p1 j l hp1

/-! ## `__init__` preserves the compile-time invariant -/

theorem compileAux_nil_CI {g : Graph} {prev tmp : Nat} {g' : Graph} (ci : CI g)
    (h : compileAux g prev tmp [] = Except.ok g') : CI g' := by
  have hterm : ∀ st, (Node.mk Kind.termination ([] : List (Option Nat))).kind ≠ Kind.plus st :=
    fun st hk => Kind.noConfusion hk
  have ci1 : CI (g ++ [Node.mk Kind.termination []]) :=
    push_single_CI ci hterm (by intro j hj; cases hj)
  have hlt : g.length < (g ++ [Node.mk Kind.termination []]).length := by
    rw [List.length_append, List.length_singleton]
    omega
  have hPHn : ¬ IsPlusHead (g ++ [Node.mk Kind.termination []]) g.length := by
    rw [isPlusHead_push_single hterm]
    intro hph
    exact absurd (PH_lt ci hph) (Nat.lt_irrefl _)
  simp only [compileAux] at h
  injection h with h
  rw [← h]
  exact appendNext_CI ci1 hlt hPHn

theorem init_next_state_CI {g : Graph} (ci : CI g) {tok : Char} {tmp : Option Nat}
    (htmp : ∀ t, tmp = some t → t < g.length ∧ ¬ IsPlusHead g t)
    {g1 : Graph} {nn : Nat}
    (h : init_next_state g tok tmp = Except.ok (g1, nn)) :
    CI g1 ∧ nn < g1.length ∧ ¬ IsPlusHead g1 nn := by
  unfold init_next_state at h
  by_cases h1 : tok = '.'
  · rw [if_pos h1] at h
    injection h with h
    injection h with hg hn
    subst hg
    subst hn
    have hnotplus : ∀ st, (Node.mk Kind.dot ([] : List (Option Nat))).kind ≠ Kind.plus st :=
      fun st hk => Kind.noConfusion hk
    refine ⟨push_single_CI ci hnotplus (by intro j hj; cases hj), ?_, ?_⟩
    · rw [List.length_append, List.length_singleton]
      omega
    · rw [isPlusHead_push_single hnotplus]
      intro hph
      exact absurd (PH_lt ci hph) (Nat.lt_irrefl _)
  · rw [if_neg h1] at h
    by_cases h2 : tok = '*'
    · rw [if_pos h2] at h
      injection h with h
      injection h with hg hn
      subst hg
      subst hn
      have hnotplus : ∀ st,
          (Node.mk (Kind.star tmp) [tmp, some g.length]).kind ≠ Kind.plus st :=
        fun st hk => Kind.noConfusion hk
      refine ⟨push_single_CI ci hnotplus ?_, ?_, ?_⟩
      · intro j hj
        rcases List.mem_cons.mp hj with hj | hj
        · exact Or.inl (htmp j hj.symm)
        · rcases List.mem_cons.mp hj with hj | hj
          · exact Or.inr (Option.some.inj hj)
          · cases hj
      · rw [List.length_append, List.length_singleton]
        omega
      · rw [isPlusHead_push_single hnotplus]
        intro hph
        exact absurd (PH_lt ci hph) (Nat.lt_irrefl _)
    · rw [if_neg h2] at h
      by_cases h3 : tok = '+'
      · rw [if_pos h3] at h
        injection h with h
        injection h with hg hn
        subst hg
        subst hn
        refine ⟨push_pair_CI ci htmp, ?_, ?_⟩
        · rw [List.length_append]
          simp only [List.length_cons, List.length_nil]
          omega
        · rw [isPlusHead_push_pair]
          rintro (hph | hph)
          · have := PH_lt ci hph
            omega
          · omega
      · rw [if_neg h3] at h
        by_cases h4 : tok.toNat ≤ 127
        · rw [if_pos h4] at h
          injection h with h
          injection h with hg hn
          subst hg
          subst hn
          have hnotplus : ∀ st,
              (Node.mk (Kind.ascii tok) ([] : List (Option Nat))).kind ≠ Kind.plus st :=
            fun st hk => Kind.noConfusion hk
          refine ⟨push_single_CI ci hnotplus (by intro j hj; cases hj), ?_, ?_⟩
          · rw [List.length_append, List.length_singleton]
            omega
          · rw [isPlusHead_push_single hnotplus]
            intro hph
            exact absurd (PH_lt ci hph) (Nat.lt_irrefl _)
        · rw [if_neg h4] at h
          cases h

theorem compileAux_CI (N : Nat) : ∀ (cs : List Char), cs.length ≤ N →
    ∀ (g : Graph) (prev tmp : Nat) (g' : Graph), CI g → tmp < g.length →
      ¬ IsPlusHead g tmp → compileAux g prev tmp cs = Except.ok g' → CI g' := by
  induction N with
  | zero =>
    intro cs hlen g prev tmp g' ci htmp htmpPH h
    cases cs with
    | nil => exact compileAux_nil_CI ci h
    | cons c rest =>
      simp only [List.length_cons] at hlen
      omega
  | succ N ih =>
    intro cs hlen g prev tmp g' ci htmp htmpPH h
    cases cs with
    | nil => exact compileAux_nil_CI ci h
    | cons c rest =>
      cases rest with
      | nil =>
        cases hin : init_next_state g c (some tmp) with
        | error er =>
          rw [show compileAux g prev tmp [c] = Except.error er from by
            simp only [compileAux, hin]] at h
          cases h
        | ok pr =>
          obtain ⟨g1, nn⟩ := pr
          obtain ⟨ci1, hnn, hnnPH⟩ := init_next_state_CI ci
            (fun t ht => by
              rw [Option.some.inj ht] at htmp htmpPH
              exact ⟨htmp, htmpPH⟩) hin
          rw [show compileAux g prev tmp [c] =
              compileAux (appendNext g1 prev nn) nn nn [] from by
            simp only [compileAux, hin]] at h
          refine ih [] (Nat.zero_le N) _ nn nn g' (appendNext_CI ci1 hnn hnnPH) ?_ ?_ h
          · rw [appendNext_length]
            exact hnn
          · rw [isPlusHead_appendNext ci1]
            exact hnnPH
      | cons c2 rest2 =>
        by_cases hq : c2 = '*' ∨ c2 = '+'
        · cases hrep : init_next_state g c none with
          | error er =>
            rw [show compileAux g prev tmp (c :: c2 :: rest2) = Except.error er from by
              simp only [compileAux, if_pos hq, hrep]] at h
            cases h
          | ok pr =>
            obtain ⟨g1, rep⟩ := pr
            obtain ⟨ci1, hrep1, hrepPH⟩ := init_next_state_CI ci
              (fun t ht => Option.noConfusion ht) hrep
            cases hq2 : init_next_state g1 c2 (some rep) with
            | error er =>
              rw [show compileAux g prev tmp (c :: c2 :: rest2) = Except.error er from by
                simp only [compileAux, if_pos hq, hrep, hq2]] at h
              cases h
            | ok pr2 =>
              obtain ⟨g2, q⟩ := pr2
              obtain ⟨ci2, hq1, hqPH⟩ := init_next_state_CI ci1
                (fun t ht => by
                  rw [← Option.some.inj ht]
                  exact ⟨hrep1, hrepPH⟩) hq2
              rw [show compileAux g prev tmp (c :: c2 :: rest2) =
                  compileAux (appendNext g2 prev q) q q rest2 from by
                simp only [compileAux, if_pos hq, hrep, hq2]] at h
              refine ih rest2 ?_ _ q q g' (appendNext_CI ci2 hq1 hqPH) ?_ ?_ h
              · simp only [List.length_cons] at hlen
                omega
              · rw [appendNext_length]
                exact hq1
              · rw [isPlusHead_appendNext ci2]
                exact hqPH
        · cases hin : init_next_state g c (some tmp) with
          | error er =>
            rw [show compileAux g prev tmp (c :: c2 :: rest2) = Except.error er from by
              simp only [compileAux, if_neg hq, hin]] at h
            cases h
          | ok pr =>
            obtain ⟨g1, nn⟩ := pr
            obtain ⟨ci1, hnn, hnnPH⟩ := init_next_state_CI ci
              (fun t ht => by
                rw [Option.some.inj ht] at htmp htmpPH
                exact ⟨htmp, htmpPH⟩) hin
            rw [show compileAux g prev tmp (c :: c2 :: rest2) =
                compileAux (appendNext g1 prev nn) nn nn (c2 :: rest2) from by
              simp only [compileAux, if_neg hq, hin]] at h
            refine ih (c2 :: rest2) ?_ _ nn nn g' (appendNext_CI ci1 hnn hnnPH) ?_ ?_ h
            · simp only [List.length_cons] at hlen ⊢
              omega
            · rw [appendNext_length]
              exact hnn
            · rw [isPlusHead_appendNext ci1]
              exact hnnPH

theorem compileFresh_CI {p : String} {g : Graph}
    (h : compileFresh p = Except.ok g) : CI g := by
  unfold compileFresh compileInto at h
  refine compileAux_CI p.toList.length p.toList (Nat.le_refl _) startGraph 0 0 g
    CI_startGraph ?_ ?_ h
  · exact Nat.zero_lt_one
  · rintro ⟨q, st, t, hq⟩
    cases q with
    | zero =>
      have hq0 : (some (Node.mk Kind.start []) : Option Node) =
          some (Node.mk (Kind.plus st) (some 0 :: t)) := hq
      injection hq0 with hq0
      exact Kind.noConfusion (congrArg Node.kind hq0)
    | succ m =>
      have hq0 : (none : Option Node) =
          some (Node.mk (Kind.plus st) (some 0 :: t)) := hq
      cases hq0

/-! ## C9: repeated matching is outcome-stable -/

theorem foldSt_refl (g : Graph) : FoldSt g g (fun _ => 0) := by
  refine ⟨rfl, fun i => rfl, fun i => ?_, fun i _ => rfl⟩
  rw [repBlk_zero, List.append_nil]

theorem tailCompat_zero (g : Graph) : TailCompat g (fun _ => 0) :=
  fun _ _ _ _ _ _ => rfl

theorem iter_foldSt {g₀ : Graph} (W : WF g₀) (fuel : Nat) (s : List Char) :
    ∀ (n : Nat) (g : Graph) (k : Nat → Nat), FoldSt g₀ g k → TailCompat g₀ k →
      ∃ k', FoldSt g₀ (iterMatch fuel s n g) k' ∧ TailCompat g₀ k' := by
  intro n
  induction n with
  | zero =>
    intro g k F T
    exact ⟨k, F, T⟩
  | succ m ih =>
    intro g k F T
    obtain ⟨heq, kA', kB', FA', FB', TA', TB'⟩ :=
      check_string_congr g₀ W fuel s g g k k F F T T
    simp only [iterMatch]
    exact ih _ kA' FA' TA'

/-- C9: for every pattern `p` and candidate `s`, repeatedly invoking the
matcher on the same compiled graph with the same `s` is deterministic: the
`(n+1)`-st call produces exactly the same outcome as the first — the same
boolean verdict when one is returned, and the same propagated error otherwise
— even though the lazy fold in `PlusState.check_next` may keep mutating the
graph on every call. -/
theorem c9_matches_outcome_stable (fuel : Nat) (p : String) (g : Graph)
    (s : List Char) (n : Nat) (h : compileFresh p = Except.ok g) :
    (check_string fuel (iterMatch fuel s n g) s).2 = (check_string fuel g s).2 := by
  have W : WF g := (compileFresh_CI h).toWF
  obtain ⟨k', F', T'⟩ :=
    iter_foldSt W fuel s n g (fun _ => 0) (foldSt_refl g) (tailCompat_zero g)
  exact (check_string_congr g W fuel s (iterMatch fuel s n g) g k' (fun _ => 0)
    F' (foldSt_refl g) T' (tailCompat_zero g)).1

theorem c9_matches_outcome_stable_witness :
    (check_string 50 (iterMatch 50 (String.toList "ab") 1
        [Node.mk Kind.start [some 3], Node.mk (Kind.ascii 'a') [],
         Node.mk (Kind.star (some 1)) [some 1, some 2],
         Node.mk (Kind.plus (some 1)) [some 2, some 4],
         Node.mk (Kind.ascii 'b') [some 5], Node.mk Kind.termination []])
      (String.toList "ab")).2 =
    (check_string 50
        [Node.mk Kind.start [some 3], Node.mk (Kind.ascii 'a') [],
         Node.mk (Kind.star (some 1)) [some 1, some 2],
         Node.mk (Kind.plus (some 1)) [some 2, some 4],
         Node.mk (Kind.ascii 'b') [some 5], Node.mk Kind.termination []]
      (String.toList "ab")).2 :=
  c9_matches_outcome_stable 50 "a+b"
    [Node.mk Kind.start [some 3], Node.mk (Kind.ascii 'a') [],
     Node.mk (Kind.star (some 1)) [some 1, some 2],
     Node.mk (Kind.plus (some 1)) [some 2, some 4],
     Node.mk (Kind.ascii 'b') [some 5], Node.mk Kind.termination []]
    (String.toList "ab") 1 (by rfl)

/-- C9 as literally stated is refuted: the matcher does not yield a boolean
result on every call — for pattern `"a"` and candidate `"a"`, already the
first invocation escapes with the attribute error raised by `check_next` on
the `TerminationState`, so no boolean is produced at all. -/
theorem c9_counterexample_matches_no_boolean :
    compileFresh "a" = Except.ok
      [Node.mk Kind.start [some 1], Node.mk (Kind.ascii 'a') [some 2],
       Node.mk Kind.termination []] ∧
    (check_string 50
        [Node.mk Kind.start [some 1], Node.mk (Kind.ascii 'a') [some 2],
         Node.mk Kind.termination []] (String.toList "a")).2 =
      Except.error MErr.attrError := ⟨rfl, rfl⟩
